import Mathlib

/-!
Shallow embedding of the GMRES demo solver (`examples/gmres_demo.py`):
the Givens-rotation helper `givens_rotation`, the core solver `gmres`
(Arnoldi process + rotation updates + triangular / least-squares solve),
and the restarted wrapper `gmres_restart`.

Modelling conventions:
* floating-point arithmetic is modelled by exact real arithmetic (`ℝ`);
* numpy arrays are modelled by total functions (`np.zeros` initialises
  every entry to `0`, so unwritten entries read as `0`, exactly as the
  functions do);
* `np.linalg.solve` raises `LinAlgError` on a singular matrix; it is
  modelled by an `Option`-valued exact solver `linSolve`;
* `np.linalg.lstsq(..., rcond=None)` returns the minimum-norm
  least-squares solution; it is modelled by `lstsq`, defined by that
  characterisation.
-/

open scoped BigOperators RealInnerProductSpace

noncomputable section

/-- Euclidean dot product of two length-`n` vectors (`np.dot(v, w)`). -/
def dotp {n : ℕ} (v w : Fin n → ℝ) : ℝ := ∑ i, v i * w i

/-- Euclidean 2-norm (`np.linalg.norm(v)`). -/
def norm2 {n : ℕ} (v : Fin n → ℝ) : ℝ := Real.sqrt (∑ i, v i ^ 2)

/-- `givens_rotation(a, b)` from the source: the pair `(c, s)` meant to
eliminate `b`.  (The branches are transcribed literally, including the
sign of `tau`.) -/
def givens_rotation (a b : ℝ) : ℝ × ℝ :=
  if b = 0 then (1, 0)
  else if |a| < |b| then
    let tau := -a / b
    let s := 1 / Real.sqrt (1 + tau * tau)
    (s * tau, s)
  else
    let tau := -b / a
    let c := 1 / Real.sqrt (1 + tau * tau)
    (c, c * tau)

/-- Point update of a curried two-index array (`H[i, j] = v`). -/
def upd2 (H : ℕ → ℕ → ℝ) (i j : ℕ) (v : ℝ) : ℕ → ℕ → ℝ :=
  fun r c => if r = i ∧ c = j then v else H r c

/-- The mutable state of one `gmres` call: Arnoldi basis columns `V`,
Hessenberg matrix `H`, rotation caches `cs`, `sn`, rotated right-hand
side `g`, and the residual history `resvec`. -/
structure GState (n : ℕ) where
  V : ℕ → Fin n → ℝ
  H : ℕ → ℕ → ℝ
  cs : ℕ → ℝ
  sn : ℕ → ℝ
  g : ℕ → ℝ
  resvec : List ℝ

/-- One iteration of the Modified Gram–Schmidt inner loop at column `j`:
`H[i, j] = np.dot(V[:, i], w); w = w - H[i, j] * V[:, i]`. -/
def mgsStep {n : ℕ} (V : ℕ → Fin n → ℝ) (j : ℕ)
    (p : (ℕ → ℕ → ℝ) × (Fin n → ℝ)) (i : ℕ) : (ℕ → ℕ → ℝ) × (Fin n → ℝ) :=
  let h := dotp (V i) p.2
  (upd2 p.1 i j h, fun t => p.2 t - h * V i t)

/-- The Arnoldi expansion at step `j`: `w = A @ V[:, j]` followed by the
Modified Gram–Schmidt loop `for i in range(j + 1)`.  Returns the updated
Hessenberg array and the orthogonalised `w`. -/
def arnoldi {n : ℕ} (Aop : (Fin n → ℝ) → (Fin n → ℝ)) (st : GState n)
    (j : ℕ) : (ℕ → ℕ → ℝ) × (Fin n → ℝ) :=
  (List.range (j + 1)).foldl (mgsStep st.V j) (st.H, Aop (st.V j))

/-- One application of a cached rotation `i` to the pair
`(H[i, j], H[i+1, j])` of the new Hessenberg column `j`. -/
def rotStep (cs sn : ℕ → ℝ) (j : ℕ) (Hc : ℕ → ℕ → ℝ) (i : ℕ) : ℕ → ℕ → ℝ :=
  upd2 (upd2 Hc (i + 1) j (-(sn i) * Hc i j + cs i * Hc (i + 1) j)) i j
    (cs i * Hc i j + sn i * Hc (i + 1) j)

/-- `for i in range(j)`: apply the cached rotations to the new Hessenberg
column `j`. -/
def applyRots (cs sn : ℕ → ℝ) (j : ℕ) (H : ℕ → ℕ → ℝ) : ℕ → ℕ → ℝ :=
  (List.range j).foldl (rotStep cs sn j) H

/-- The orthogonalised `w` produced by the Arnoldi expansion at step `j`. -/
def stepW {n : ℕ} (Aop : (Fin n → ℝ) → (Fin n → ℝ)) (st : GState n)
    (j : ℕ) : Fin n → ℝ :=
  (arnoldi Aop st j).2

/-- `H[j+1, j] = np.linalg.norm(w)` computed at step `j`. -/
def stepHnorm {n : ℕ} (Aop : (Fin n → ℝ) → (Fin n → ℝ)) (st : GState n)
    (j : ℕ) : ℝ :=
  norm2 (stepW Aop st j)

/-- The Hessenberg array at step `j` after storing `H[j+1, j]` and
applying the cached rotations to column `j`. -/
def stepH2 {n : ℕ} (Aop : (Fin n → ℝ) → (Fin n → ℝ)) (st : GState n)
    (j : ℕ) : ℕ → ℕ → ℝ :=
  applyRots st.cs st.sn j
    (upd2 (arnoldi Aop st j).1 (j + 1) j (stepHnorm Aop st j))

/-- The cosine of the new rotation computed at step `j`. -/
def stepC {n : ℕ} (Aop : (Fin n → ℝ) → (Fin n → ℝ)) (st : GState n)
    (j : ℕ) : ℝ :=
  (givens_rotation (stepH2 Aop st j j j) (stepH2 Aop st j (j + 1) j)).1

/-- The sine of the new rotation computed at step `j`. -/
def stepS {n : ℕ} (Aop : (Fin n → ℝ) → (Fin n → ℝ)) (st : GState n)
    (j : ℕ) : ℝ :=
  (givens_rotation (stepH2 Aop st j j j) (stepH2 Aop st j (j + 1) j)).2

/-- The whole body of iteration `j` of the main `for j in range(maxiter)`
loop of `gmres`: Arnoldi expansion, conditional normalisation of the next
basis column, application of the previous rotations, computation and
application of the new rotation, update of the rotated right-hand side,
and appending of `abs(g[j+1])` to the residual history. -/
def gmresStep {n : ℕ} (Aop : (Fin n → ℝ) → (Fin n → ℝ)) (st : GState n)
    (j : ℕ) : GState n :=
  { V := if stepHnorm Aop st j = 0 then st.V
         else Function.update st.V (j + 1)
           (fun t => stepW Aop st j t / stepHnorm Aop st j)
    H := upd2
      (upd2 (stepH2 Aop st j) j j
        (stepC Aop st j * stepH2 Aop st j j j
          + stepS Aop st j * stepH2 Aop st j (j + 1) j))
      (j + 1) j 0
    cs := Function.update st.cs j (stepC Aop st j)
    sn := Function.update st.sn j (stepS Aop st j)
    g := Function.update
      (Function.update st.g (j + 1)
        (-stepS Aop st j * st.g j + stepC Aop st j * st.g (j + 1)))
      j (stepC Aop st j * st.g j + stepS Aop st j * st.g (j + 1))
    resvec := st.resvec
      ++ [|-stepS Aop st j * st.g j + stepC Aop st j * st.g (j + 1)|] }

/-- Squared Euclidean residual of a candidate solution `z` of the
least-squares problem `M z ≈ v`. -/
def err2 {p q : ℕ} (M : Matrix (Fin p) (Fin q) ℝ) (v : Fin p → ℝ)
    (z : Fin q → ℝ) : ℝ :=
  ∑ i, (M.mulVec z i - v i) ^ 2

/-- Squared Euclidean norm. -/
def normSq {q : ℕ} (y : Fin q → ℝ) : ℝ := ∑ i, y i ^ 2

/-- `y` is the minimum-norm least-squares solution of `M z ≈ v`: it
minimises the residual and, among all residual minimisers, has minimal
norm.  This is the contract of `np.linalg.lstsq(M, v, rcond=None)[0]`. -/
def IsMinNormLS {p q : ℕ} (M : Matrix (Fin p) (Fin q) ℝ) (v : Fin p → ℝ)
    (y : Fin q → ℝ) : Prop :=
  (∀ z, err2 M v y ≤ err2 M v z) ∧
    ∀ z, (∀ w, err2 M v z ≤ err2 M v w) → normSq y ≤ normSq z

/-- Cast a plain vector into `EuclideanSpace` (definitionally equal
types; the cast fixes which norm instance is meant). -/
def toEuc {k : ℕ} (z : Fin k → ℝ) : EuclideanSpace ℝ (Fin k) := z

/-- `np.linalg.lstsq(M, v, rcond=None)[0]`: the minimum-norm
least-squares solution, specified by `IsMinNormLS` (existence is proved
in `exists_isMinNormLS` below). -/
def lstsq {p q : ℕ} (M : Matrix (Fin p) (Fin q) ℝ) (v : Fin p → ℝ) :
    Fin q → ℝ :=
  Classical.epsilon (IsMinNormLS M v)

open Classical in
/-- `np.linalg.solve(M, v)`: the exact solution of the square system
`M y = v`, raising `LinAlgError` (modelled as `none`) when `M` is
singular. -/
def linSolve {k : ℕ} (M : Matrix (Fin k) (Fin k) ℝ) (v : Fin k → ℝ) :
    Option (Fin k → ℝ) :=
  if IsUnit M.det then some (M⁻¹.mulVec v) else none

/-- The main `for j in range(maxiter)` loop of `gmres`, as a recursion on
the remaining fuel (`fuel = maxiter - j`).  When the residual check
`res_norm <= tol` succeeds it solves the triangular system
`H[:j+1, :j+1] y = g[:j+1]` (propagating the `LinAlgError` of a singular
system as `none`) and returns `x + V[:, :j+1] @ y`; when the fuel runs
out it mirrors the post-loop
`y = lstsq(H[:maxiter, :maxiter], g[:maxiter])` path. -/
def gmresLoop {n : ℕ} (Aop : (Fin n → ℝ) → (Fin n → ℝ)) (tol : ℝ)
    (x : Fin n → ℝ) (m : ℕ) : GState n → ℕ → ℕ → Option ((Fin n → ℝ) × List ℝ)
  | st, _, 0 =>
      let y := lstsq (Matrix.of fun i k : Fin m => st.H i k)
                 (fun i : Fin m => st.g i)
      some (fun t => x t + ∑ i : Fin m, y i * st.V i t, st.resvec)
  | st, j, fuel + 1 =>
      let st1 := gmresStep Aop st j
      if |st1.g (j + 1)| ≤ tol then
        (linSolve (Matrix.of fun i k : Fin (j + 1) => st1.H i k)
            (fun i : Fin (j + 1) => st1.g i)).map
          (fun y => (fun t => x t + ∑ i : Fin (j + 1), y i * st1.V i t,
            st1.resvec))
      else gmresLoop Aop tol x m st1 (j + 1) fuel

/-- The initial solver state (after `V[:, 0] = r0 / beta`, `g[0] = beta`,
`resvec = [beta]`; all other storage is `np.zeros`). -/
def initState (n : ℕ) (r0 : Fin n → ℝ) (beta : ℝ) : GState n :=
  { V := Function.update (fun _ _ => 0) 0 (fun t => r0 t / beta)
    H := fun _ _ => 0
    cs := fun _ => 0
    sn := fun _ => 0
    g := Function.update (fun _ => 0) 0 beta
    resvec := [beta] }

/-- `gmres(A, b, x0, tol, maxiter)` from the source.  `A` is passed as
its matrix–vector product (`aslinearoperator(A).matvec`); `x0 = None`
defaults to the zero vector; a `LinAlgError` escaping from the triangular
solve is modelled as `none`. -/
def gmres {n : ℕ} (Aop : (Fin n → ℝ) → (Fin n → ℝ)) (b : Fin n → ℝ)
    (x0 : Option (Fin n → ℝ)) (tol : ℝ) (maxiter : ℕ) :
    Option ((Fin n → ℝ) × List ℝ) :=
  let x := x0.getD (fun _ => 0)
  let r0 := fun t => b t - Aop x t
  let beta := norm2 r0
  if beta = 0 then some (x, [0])
  else gmresLoop Aop tol x maxiter (initState n r0 beta) 0 maxiter

/-- The `for cycle in range(maxcycles)` loop of `gmres_restart`,
as a recursion on the remaining cycles.  `residuals[-1]` on an empty
list would raise `IndexError`, modelled as `none` (it never happens,
since inner histories are nonempty). -/
def restartLoop {n : ℕ} (Aop : (Fin n → ℝ) → (Fin n → ℝ)) (b : Fin n → ℝ)
    (tol : ℝ) (m : ℕ) :
    (Fin n → ℝ) → List ℝ → ℕ → ℕ → Option ((Fin n → ℝ) × List ℝ)
  | x, residuals, _, 0 => some (x, residuals)
  | x, residuals, cycle, rem + 1 =>
      match gmres Aop b (some x) tol m with
      | none => none
      | some (x1, rvec) =>
          let residuals1 := residuals ++ (if cycle = 0 then rvec else rvec.tail)
          match residuals1.getLast? with
          | none => none
          | some l =>
              if l ≤ tol then some (x1, residuals1)
              else restartLoop Aop b tol m x1 residuals1 (cycle + 1) rem

/-- `gmres_restart(A, b, x0, m, tol, maxcycles)` from the source. -/
def gmres_restart {n : ℕ} (Aop : (Fin n → ℝ) → (Fin n → ℝ)) (b : Fin n → ℝ)
    (x0 : Option (Fin n → ℝ)) (m : ℕ) (tol : ℝ) (maxcycles : ℕ) :
    Option ((Fin n → ℝ) × List ℝ) :=
  restartLoop Aop b tol m (x0.getD (fun _ => 0)) [] 0 maxcycles

/-- The solver state after `j` completed iterations of the main loop
(no early exit taken, starting from state `st0`). -/
def stateAt {n : ℕ} (Aop : (Fin n → ℝ) → (Fin n → ℝ)) (st0 : GState n) :
    ℕ → GState n
  | 0 => st0
  | j + 1 => gmresStep Aop (stateAt Aop st0 j) j

/-- The residual value `abs(g[j+1])` computed (and appended to the
history) at iteration `j`. -/
def resAt {n : ℕ} (Aop : (Fin n → ℝ) → (Fin n → ℝ)) (st0 : GState n)
    (j : ℕ) : ℝ :=
  |(stateAt Aop st0 (j + 1)).g (j + 1)|

/-- The initial state built by `gmres` from its arguments (the state
just before the main loop, when `beta != 0`). -/
def gmresInit {n : ℕ} (Aop : (Fin n → ℝ) → (Fin n → ℝ)) (b : Fin n → ℝ)
    (x0 : Option (Fin n → ℝ)) : GState n :=
  initState n (fun t => b t - Aop (x0.getD (fun _ => 0)) t)
    (norm2 (fun t => b t - Aop (x0.getD (fun _ => 0)) t))

/-- Concatenation of inner residual histories the way `gmres_restart`
builds its running history: cycle `0` contributes whole, each of the
next `k` cycles contributes its tail. -/
def catHist (hs : ℕ → List ℝ) (k : ℕ) : List ℝ :=
  hs 0 ++ ((List.range k).map (fun i => (hs (i + 1)).tail)).flatten

/-- The 2×2 matrix `[[1, 1], [1, 0]]` used as a concrete input. -/
def Abug : Matrix (Fin 2) (Fin 2) ℝ := !![1, 1; 1, 0]

/-- The right-hand side `[1, 0]` used with `Abug`. -/
def bbug : Fin 2 → ℝ := ![1, 0]

theorem euclid_norm_sq {k : ℕ} (x : EuclideanSpace ℝ (Fin k)) :
    ‖x‖ ^ 2 = ∑ i, x i ^ 2 := by
  rw [EuclideanSpace.norm_eq, Real.sq_sqrt (by positivity)]
  simp [sq_abs]

/-- The minimum-norm least-squares solution exists (orthogonal
projection onto the range gives a residual minimiser; projecting away
the kernel component gives the minimum-norm one). -/
theorem exists_isMinNormLS {p q : ℕ} (M : Matrix (Fin p) (Fin q) ℝ)
    (v : Fin p → ℝ) : ∃ y : Fin q → ℝ, IsMinNormLS M v y := by
  classical
  let T : EuclideanSpace ℝ (Fin q) →ₗ[ℝ] EuclideanSpace ℝ (Fin p) :=
    { toFun := fun z => M.mulVec z
      map_add' := fun x y => M.mulVec_add x y
      map_smul' := fun r x => by simpa using M.mulVec_smul r x }
  set W : Submodule ℝ (EuclideanSpace ℝ (Fin p)) := LinearMap.range T with hW
  haveI : CompleteSpace W := FiniteDimensional.complete ℝ W
  set vE : EuclideanSpace ℝ (Fin p) := v with hvE
  set pr : EuclideanSpace ℝ (Fin p) :=
    ((orthogonalProjection W vE : W) : EuclideanSpace ℝ (Fin p)) with hpr
  have hprW : pr ∈ W := (orthogonalProjection W vE).2
  have hperp : vE - pr ∈ Wᗮ := sub_orthogonalProjection_mem_orthogonal vE
  have hpyth : ∀ w, w ∈ W → ‖vE - w‖ ^ 2 = ‖vE - pr‖ ^ 2 + ‖pr - w‖ ^ 2 := by
    intro w hw
    have hsplit : vE - w = (vE - pr) + (pr - w) := by abel
    have hmem : pr - w ∈ W := W.sub_mem hprW hw
    have hinner : ⟪vE - pr, pr - w⟫ = 0 :=
      (Submodule.mem_orthogonal' W (vE - pr)).1 hperp (pr - w) hmem
    rw [hsplit, norm_add_sq_real, hinner]
    ring
  have hmin : ∀ w, w ∈ W → ‖vE - pr‖ ^ 2 ≤ ‖vE - w‖ ^ 2 := by
    intro w hw
    rw [hpyth w hw]
    have : (0 : ℝ) ≤ ‖pr - w‖ ^ 2 := by positivity
    linarith
  obtain ⟨z₀, hz₀⟩ := hprW
  set K : Submodule ℝ (EuclideanSpace ℝ (Fin q)) := LinearMap.ker T with hK
  haveI : CompleteSpace K := FiniteDimensional.complete ℝ K
  set y : EuclideanSpace ℝ (Fin q) :=
    z₀ - ((orthogonalProjection K z₀ : K) : EuclideanSpace ℝ (Fin q)) with hy
  have hyperp : y ∈ Kᗮ := sub_orthogonalProjection_mem_orthogonal z₀
  have hTy : T y = pr := by
    have hker : T (((orthogonalProjection K z₀ : K)) : EuclideanSpace ℝ (Fin q))
        = 0 := LinearMap.mem_ker.1 (orthogonalProjection K z₀).2
    rw [hy, map_sub, hz₀, hker, sub_zero]
  have herr : ∀ z : Fin q → ℝ, err2 M v z = ‖vE - T (toEuc z)‖ ^ 2 := by
    intro z
    rw [norm_sub_rev, euclid_norm_sq]
    simp only [err2]
    exact Finset.sum_congr rfl (fun i _ => rfl)
  have hnormq : ∀ z : Fin q → ℝ, normSq z = ‖toEuc z‖ ^ 2 := by
    intro z
    rw [euclid_norm_sq]
    simp only [normSq]
    exact Finset.sum_congr rfl (fun i _ => rfl)
  have hTy' : T (toEuc y) = pr := hTy
  have hyperp' : toEuc y ∈ Kᗮ := hyperp
  have hminy : ∀ z : Fin q → ℝ, err2 M v y ≤ err2 M v z := by
    intro z
    have e1 : err2 M v y = ‖vE - pr‖ ^ 2 := by rw [herr y, hTy']
    have e2 : err2 M v z = ‖vE - T (toEuc z)‖ ^ 2 := herr z
    rw [e1, e2]
    exact hmin (T (toEuc z)) (LinearMap.mem_range.2 ⟨toEuc z, rfl⟩)
  refine ⟨y, hminy, ?_⟩
  intro z hz
  have h1 : err2 M v z ≤ err2 M v y := hz y
  have h2 : err2 M v y ≤ err2 M v z := hminy z
  have heq2 : ‖vE - T (toEuc z)‖ ^ 2 = ‖vE - pr‖ ^ 2 := by
    have h0 := le_antisymm h1 h2
    rw [herr z, herr y, hTy'] at h0
    exact h0
  have h3 := hpyth (T (toEuc z)) (LinearMap.mem_range.2 ⟨toEuc z, rfl⟩)
  rw [heq2] at h3
  have h4 : ‖pr - T (toEuc z)‖ ^ 2 = 0 := by linarith
  have h5 : pr = T (toEuc z) := by
    have h6 : ‖pr - T (toEuc z)‖ = 0 := by
      have hnn : 0 ≤ ‖pr - T (toEuc z)‖ := norm_nonneg _
      nlinarith
    exact (sub_eq_zero.1 (norm_eq_zero.1 h6))
  have hzk : toEuc z - toEuc y ∈ K := by
    rw [hK, LinearMap.mem_ker, map_sub, hTy', ← h5]
    exact sub_self pr
  have hip : ⟪toEuc y, toEuc z - toEuc y⟫ = 0 :=
    (Submodule.mem_orthogonal' K (toEuc y)).1 hyperp' _ hzk
  have hsplit : toEuc z = toEuc y + (toEuc z - toEuc y) := by abel
  calc normSq y = ‖toEuc y‖ ^ 2 := hnormq y
    _ ≤ ‖toEuc z‖ ^ 2 := by
        rw [hsplit, norm_add_sq_real, hip]
        have hge : (0 : ℝ) ≤ ‖toEuc z - toEuc y‖ ^ 2 := by positivity
        linarith
    _ = normSq z := (hnormq z).symm

theorem lstsq_isMinNormLS {p q : ℕ} (M : Matrix (Fin p) (Fin q) ℝ)
    (v : Fin p → ℝ) : IsMinNormLS M v (lstsq M v) :=
  Classical.epsilon_spec (exists_isMinNormLS M v)

theorem upd2_apply (H : ℕ → ℕ → ℝ) (i j : ℕ) (v : ℝ) (r c : ℕ) :
    upd2 H i j v r c = if r = i ∧ c = j then v else H r c := rfl

theorem givens_rotation_snd_zero (a : ℝ) : givens_rotation a 0 = (1, 0) := by
  simp [givens_rotation]

/-- The Modified Gram–Schmidt fold writes `H` only at positions `(i, j)`
with `i` in the processed list. -/
theorem mgsFold_fst_ne {n : ℕ} (V : ℕ → Fin n → ℝ) (j : ℕ) (l : List ℕ)
    (p : (ℕ → ℕ → ℝ) × (Fin n → ℝ)) (r c : ℕ)
    (h : ∀ i ∈ l, ¬(r = i ∧ c = j)) :
    (l.foldl (mgsStep V j) p).1 r c = p.1 r c := by
  induction l generalizing p with
  | nil => rfl
  | cons a l ih =>
      rw [List.foldl_cons, ih _ (fun i hi => h i (List.mem_cons_of_mem a hi))]
      show upd2 p.1 a j (dotp (V a) p.2) r c = p.1 r c
      rw [upd2_apply, if_neg (h a (List.mem_cons_self a _))]

/-- The rotation fold writes column `j` only, at rows `i` and `i + 1`
for `i` in the processed list. -/
theorem rotFold_ne (cs sn : ℕ → ℝ) (j : ℕ) (l : List ℕ) (H : ℕ → ℕ → ℝ)
    (r c : ℕ) (h : ∀ i ∈ l, ¬(r = i ∧ c = j) ∧ ¬(r = i + 1 ∧ c = j)) :
    (l.foldl (rotStep cs sn j) H) r c = H r c := by
  induction l generalizing H with
  | nil => rfl
  | cons a l ih =>
      rw [List.foldl_cons, ih _ (fun i hi => h i (List.mem_cons_of_mem a hi))]
      show upd2 (upd2 H (a + 1) j _) a j _ r c = H r c
      rw [upd2_apply, if_neg (h a (List.mem_cons_self a _)).1, upd2_apply,
        if_neg (h a (List.mem_cons_self a _)).2]

theorem applyRots_col_ne (cs sn : ℕ → ℝ) (j : ℕ) (H : ℕ → ℕ → ℝ)
    (r c : ℕ) (hc : c ≠ j) : applyRots cs sn j H r c = H r c :=
  rotFold_ne cs sn j _ H r c
    (fun _i _ => ⟨fun hp => hc hp.2, fun hp => hc hp.2⟩)

theorem applyRots_row_gt (cs sn : ℕ → ℝ) (j : ℕ) (H : ℕ → ℕ → ℝ)
    (r c : ℕ) (hr : j < r) : applyRots cs sn j H r c = H r c := by
  refine rotFold_ne cs sn j _ H r c (fun i hi => ⟨fun hp => ?_, fun hp => ?_⟩)
  · exact absurd (hp.1 ▸ List.mem_range.1 hi) (by omega)
  · have := List.mem_range.1 hi
    omega

theorem stepH2_subdiag {n : ℕ} (Aop : (Fin n → ℝ) → (Fin n → ℝ))
    (st : GState n) (j : ℕ) :
    stepH2 Aop st j (j + 1) j = stepHnorm Aop st j := by
  unfold stepH2
  rw [applyRots_row_gt _ _ _ _ _ _ (Nat.lt_succ_self j)]
  simp [upd2]

theorem stepH2_col_ne {n : ℕ} (Aop : (Fin n → ℝ) → (Fin n → ℝ))
    (st : GState n) (j r c : ℕ) (hc : c ≠ j) :
    stepH2 Aop st j r c = st.H r c := by
  unfold stepH2
  rw [applyRots_col_ne _ _ _ _ _ _ hc, upd2_apply,
    if_neg (fun hp => hc hp.2)]
  exact mgsFold_fst_ne _ _ _ _ _ _ (fun i _ => fun hp => hc hp.2)

theorem stepH2_row_gt {n : ℕ} (Aop : (Fin n → ℝ) → (Fin n → ℝ))
    (st : GState n) (j r c : ℕ) (hr : j + 1 < r) :
    stepH2 Aop st j r c = st.H r c := by
  unfold stepH2
  rw [applyRots_row_gt _ _ _ _ _ _ (by omega), upd2_apply,
    if_neg (fun hp => by omega)]
  refine mgsFold_fst_ne _ _ _ _ _ _ (fun i hi => fun hp => ?_)
  have := List.mem_range.1 hi
  omega

/-- Bundled structural invariants of the solver state after `j` steps:
basis columns past `j` are still unset (zero); Hessenberg columns from
`j` on are still zero; entries below the first subdiagonal are zero;
the subdiagonal entries of processed columns have been zeroed; and
`g[k] = 0` for `k > j`. -/
theorem stateAt_inv {n : ℕ} (Aop : (Fin n → ℝ) → (Fin n → ℝ))
    (r0 : Fin n → ℝ) (beta : ℝ) (j : ℕ) :
    (∀ k, j < k → (stateAt Aop (initState n r0 beta) j).V k = fun _ => 0) ∧
    (∀ r c, j ≤ c → (stateAt Aop (initState n r0 beta) j).H r c = 0) ∧
    (∀ r c, c + 1 < r → (stateAt Aop (initState n r0 beta) j).H r c = 0) ∧
    (∀ c, c < j → (stateAt Aop (initState n r0 beta) j).H (c + 1) c = 0) ∧
    (∀ k, j < k → (stateAt Aop (initState n r0 beta) j).g k = 0) := by
  induction j with
  | zero =>
      refine ⟨fun k hk => ?_, fun r c _ => rfl, fun r c _ => rfl,
        fun c hc => absurd hc (Nat.not_lt_zero c), fun k hk => ?_⟩
      · show Function.update (fun _ _ => 0) 0 _ k = fun _ => 0
        rw [Function.update_noteq (by omega)]
      · show Function.update (fun _ => (0 : ℝ)) 0 beta k = 0
        rw [Function.update_noteq (by omega)]
  | succ j ih =>
      obtain ⟨ihV, ihHc, ihHr, ihHd, ihg⟩ := ih
      refine ⟨fun k hk => ?_, fun r c hc => ?_, fun r c hr => ?_,
        fun c hc => ?_, fun k hk => ?_⟩
      · show (if stepHnorm Aop (stateAt Aop (initState n r0 beta) j) j = 0
            then (stateAt Aop (initState n r0 beta) j).V
            else Function.update (stateAt Aop (initState n r0 beta) j).V
              (j + 1) _) k = fun _ => 0
        split_ifs with h
        · exact ihV k (by omega)
        · rw [Function.update_noteq (by omega)]
          exact ihV k (by omega)
      · show upd2 (upd2 (stepH2 Aop (stateAt Aop (initState n r0 beta) j) j)
            j j _) (j + 1) j 0 r c = 0
        rw [upd2_apply, if_neg (by rintro ⟨h1, h2⟩; omega), upd2_apply,
          if_neg (by rintro ⟨h1, h2⟩; omega),
          stepH2_col_ne Aop _ j r c (by omega)]
        exact ihHc r c (by omega)
      · by_cases hcj : c = j
        · subst hcj
          show upd2 (upd2 (stepH2 Aop (stateAt Aop (initState n r0 beta) c) c)
              c c _) (c + 1) c 0 r c = 0
          rw [upd2_apply, if_neg (by rintro ⟨h1, _⟩; omega), upd2_apply,
            if_neg (by rintro ⟨h1, _⟩; omega),
            stepH2_row_gt Aop _ c r c (by omega)]
          exact ihHc r c le_rfl
        · show upd2 (upd2 (stepH2 Aop (stateAt Aop (initState n r0 beta) j) j)
              j j _) (j + 1) j 0 r c = 0
          rw [upd2_apply, if_neg (by rintro ⟨_, h2⟩; exact hcj h2), upd2_apply,
            if_neg (by rintro ⟨_, h2⟩; exact hcj h2),
            stepH2_col_ne Aop _ j r c hcj]
          exact ihHr r c hr
      · by_cases hcj : c = j
        · subst hcj
          show upd2 (upd2 (stepH2 Aop (stateAt Aop (initState n r0 beta) c) c)
              c c _) (c + 1) c 0 (c + 1) c = 0
          rw [upd2_apply, if_pos ⟨rfl, rfl⟩]
        · show upd2 (upd2 (stepH2 Aop (stateAt Aop (initState n r0 beta) j) j)
              j j _) (j + 1) j 0 (c + 1) c = 0
          rw [upd2_apply, if_neg (by rintro ⟨_, h2⟩; exact hcj h2), upd2_apply,
            if_neg (by rintro ⟨_, h2⟩; exact hcj h2),
            stepH2_col_ne Aop _ j (c + 1) c hcj]
          exact ihHd c (by omega)
      · show Function.update (Function.update
            (stateAt Aop (initState n r0 beta) j).g (j + 1) _) j _ k = 0
        rw [Function.update_noteq (by omega), Function.update_noteq (by omega)]
        exact ihg k (by omega)

/-- The residual value recorded at step `j`, written out from the
`g`-update of `gmresStep`. -/
theorem resAt_eq {n : ℕ} (Aop : (Fin n → ℝ) → (Fin n → ℝ)) (st0 : GState n)
    (j : ℕ) :
    resAt Aop st0 j =
      |-stepS Aop (stateAt Aop st0 j) j * (stateAt Aop st0 j).g j
        + stepC Aop (stateAt Aop st0 j) j * (stateAt Aop st0 j).g (j + 1)| := by
  have h1 : (gmresStep Aop (stateAt Aop st0 j) j).g (j + 1)
      = -stepS Aop (stateAt Aop st0 j) j * (stateAt Aop st0 j).g j
        + stepC Aop (stateAt Aop st0 j) j * (stateAt Aop st0 j).g (j + 1) := by
    show Function.update (Function.update _ (j + 1) _) j _ (j + 1) = _
    rw [Function.update_noteq (by omega), Function.update_same]
  show |(gmresStep Aop (stateAt Aop st0 j) j).g (j + 1)| = _
  rw [h1]

/-- On basis breakdown (`H[j+1, j] = 0`) the new rotation is the
identity and the recorded residual at step `j` is exactly `0`. -/
theorem resAt_breakdown {n : ℕ} (Aop : (Fin n → ℝ) → (Fin n → ℝ))
    (r0 : Fin n → ℝ) (beta : ℝ) (j : ℕ)
    (hb : stepHnorm Aop (stateAt Aop (initState n r0 beta) j) j = 0) :
    resAt Aop (initState n r0 beta) j = 0 := by
  have hsub : stepH2 Aop (stateAt Aop (initState n r0 beta) j) j (j + 1) j
      = 0 := by
    rw [stepH2_subdiag]
    exact hb
  have hS : stepS Aop (stateAt Aop (initState n r0 beta) j) j = 0 := by
    unfold stepS
    rw [hsub, givens_rotation_snd_zero]
  have hg : (stateAt Aop (initState n r0 beta) j).g (j + 1) = 0 :=
    (stateAt_inv Aop r0 beta j).2.2.2.2 (j + 1) (by omega)
  rw [resAt_eq, hS, hg]
  simp

/-- On basis breakdown the next basis column is never written: it keeps
its `np.zeros` initial value (no division by the zero norm happens). -/
theorem stateAt_V_breakdown {n : ℕ} (Aop : (Fin n → ℝ) → (Fin n → ℝ))
    (r0 : Fin n → ℝ) (beta : ℝ) (j : ℕ)
    (hb : stepHnorm Aop (stateAt Aop (initState n r0 beta) j) j = 0) :
    (stateAt Aop (initState n r0 beta) (j + 1)).V (j + 1) = fun _ => 0 := by
  show (if stepHnorm Aop (stateAt Aop (initState n r0 beta) j) j = 0
      then (stateAt Aop (initState n r0 beta) j).V
      else Function.update (stateAt Aop (initState n r0 beta) j).V
        (j + 1) _) (j + 1) = fun _ => 0
  rw [if_pos hb]
  exact (stateAt_inv Aop r0 beta j).1 (j + 1) (by omega)

/-- The residual history after `j` steps is the initial history followed
by the recorded residuals of steps `0, …, j-1`. -/
theorem stateAt_resvec {n : ℕ} (Aop : (Fin n → ℝ) → (Fin n → ℝ))
    (st0 : GState n) (j : ℕ) :
    (stateAt Aop st0 j).resvec
      = st0.resvec ++ (List.range j).map (resAt Aop st0) := by
  induction j with
  | zero => simp [stateAt]
  | succ j ih =>
      have h1 : (stateAt Aop st0 (j + 1)).resvec
          = (stateAt Aop st0 j).resvec ++ [resAt Aop st0 j] := by
        rw [resAt_eq]
        rfl
      rw [h1, ih, List.append_assoc, List.range_succ, List.map_append]
      rfl

/-- If no early exit is taken before step `j`, the main loop reaches
state `stateAt j` with `m - j` iterations of fuel left. -/
theorem gmresLoop_reach {n : ℕ} (Aop : (Fin n → ℝ) → (Fin n → ℝ))
    (tol : ℝ) (x : Fin n → ℝ) (m : ℕ) (st0 : GState n) (j : ℕ) (hj : j ≤ m)
    (hprev : ∀ i, i < j → ¬(resAt Aop st0 i ≤ tol)) :
    gmresLoop Aop tol x m st0 0 m
      = gmresLoop Aop tol x m (stateAt Aop st0 j) j (m - j) := by
  induction j with
  | zero => rfl
  | succ j ih =>
      rw [ih (by omega) (fun i hi => hprev i (by omega))]
      have hfuel : m - j = (m - (j + 1)) + 1 := by omega
      rw [hfuel]
      show gmresLoop Aop tol x m (stateAt Aop st0 j) j ((m - (j + 1)) + 1) = _
      simp only [gmresLoop]
      rw [if_neg (show ¬(|(gmresStep Aop (stateAt Aop st0 j) j).g (j + 1)|
        ≤ tol) from hprev j (by omega))]
      rfl

/-- If every recorded residual stays above `tol`, `gmres` exhausts the
loop and takes the `np.linalg.lstsq` fallback path. -/
theorem gmres_exhaust_char {n : ℕ} (Aop : (Fin n → ℝ) → (Fin n → ℝ))
    (b : Fin n → ℝ) (x0 : Option (Fin n → ℝ)) (tol : ℝ) (m : ℕ)
    (hbeta : norm2 (fun t => b t - Aop (x0.getD (fun _ => 0)) t) ≠ 0)
    (hres : ∀ j, j < m → ¬(resAt Aop (gmresInit Aop b x0) j ≤ tol)) :
    gmres Aop b x0 tol m = some
      (fun t => (x0.getD (fun _ => 0)) t
        + ∑ i : Fin m,
            lstsq (Matrix.of fun i k : Fin m =>
                (stateAt Aop (gmresInit Aop b x0) m).H i k)
              (fun i : Fin m => (stateAt Aop (gmresInit Aop b x0) m).g i) i
            * (stateAt Aop (gmresInit Aop b x0) m).V i t,
        (stateAt Aop (gmresInit Aop b x0) m).resvec) := by
  show (if norm2 (fun t => b t - Aop (x0.getD (fun _ => 0)) t) = 0
      then some (x0.getD (fun _ => 0), [0])
      else gmresLoop Aop tol (x0.getD (fun _ => 0)) m
        (gmresInit Aop b x0) 0 m) = _
  rw [if_neg hbeta,
    gmresLoop_reach Aop tol _ m (gmresInit Aop b x0) m le_rfl hres,
    Nat.sub_self]
  rfl

/-- If the first residual at or below `tol` is recorded at step `j < m`,
`gmres` exits early there through the `np.linalg.solve` path. -/
theorem gmres_exit_char {n : ℕ} (Aop : (Fin n → ℝ) → (Fin n → ℝ))
    (b : Fin n → ℝ) (x0 : Option (Fin n → ℝ)) (tol : ℝ) (j m : ℕ)
    (hbeta : norm2 (fun t => b t - Aop (x0.getD (fun _ => 0)) t) ≠ 0)
    (hj : j < m)
    (hprev : ∀ i, i < j → ¬(resAt Aop (gmresInit Aop b x0) i ≤ tol))
    (hexit : resAt Aop (gmresInit Aop b x0) j ≤ tol) :
    gmres Aop b x0 tol m = (linSolve
        (Matrix.of fun i k : Fin (j + 1) =>
          (stateAt Aop (gmresInit Aop b x0) (j + 1)).H i k)
        (fun i : Fin (j + 1) =>
          (stateAt Aop (gmresInit Aop b x0) (j + 1)).g i)).map
      (fun y => (fun t => (x0.getD (fun _ => 0)) t
          + ∑ i : Fin (j + 1),
              y i * (stateAt Aop (gmresInit Aop b x0) (j + 1)).V i t,
        (stateAt Aop (gmresInit Aop b x0) (j + 1)).resvec)) := by
  show (if norm2 (fun t => b t - Aop (x0.getD (fun _ => 0)) t) = 0
      then some (x0.getD (fun _ => 0), [0])
      else gmresLoop Aop tol (x0.getD (fun _ => 0)) m
        (gmresInit Aop b x0) 0 m) = _
  rw [if_neg hbeta,
    gmresLoop_reach Aop tol _ m (gmresInit Aop b x0) j (by omega) hprev]
  have hfuel : m - j = (m - (j + 1)) + 1 := by omega
  rw [hfuel]
  simp only [gmresLoop]
  rw [if_pos (show |(gmresStep Aop (stateAt Aop (gmresInit Aop b x0) j) j).g
    (j + 1)| ≤ tol from hexit)]
  rfl

/-- The inner loop only ever returns nonempty residual histories
(assuming it starts with one). -/
theorem gmresLoop_resvec_ne_nil {n : ℕ} (Aop : (Fin n → ℝ) → (Fin n → ℝ))
    (tol : ℝ) (x : Fin n → ℝ) (m : ℕ) :
    ∀ (fuel j : ℕ) (st : GState n), st.resvec ≠ [] →
      ∀ xr h, gmresLoop Aop tol x m st j fuel = some (xr, h) → h ≠ [] := by
  intro fuel
  induction fuel with
  | zero =>
      intro j st hne xr h heq
      simp only [gmresLoop] at heq
      cases heq
      exact hne
  | succ fuel ih =>
      intro j st hne xr h heq
      simp only [gmresLoop] at heq
      by_cases hc : |(gmresStep Aop st j).g (j + 1)| ≤ tol
      · rw [if_pos hc] at heq
        cases hsolve : linSolve
            (Matrix.of fun i k : Fin (j + 1) => (gmresStep Aop st j).H i k)
            (fun i : Fin (j + 1) => (gmresStep Aop st j).g i) with
        | none => rw [hsolve] at heq; simp at heq
        | some y =>
            rw [hsolve] at heq
            simp only [Option.map_some', Option.some_inj] at heq
            have : h = (gmresStep Aop st j).resvec := congrArg Prod.snd heq.symm
            rw [this]
            show st.resvec ++ _ ≠ []
            simp
      · rw [if_neg hc] at heq
        refine ih (j + 1) (gmresStep Aop st j) ?_ xr h heq
        show st.resvec ++ _ ≠ []
        simp

/-- `gmres` only ever returns a nonempty residual history. -/
theorem gmres_resvec_ne_nil {n : ℕ} (Aop : (Fin n → ℝ) → (Fin n → ℝ))
    (b : Fin n → ℝ) (x0 : Option (Fin n → ℝ)) (tol : ℝ) (m : ℕ)
    (xr : Fin n → ℝ) (h : List ℝ)
    (heq : gmres Aop b x0 tol m = some (xr, h)) : h ≠ [] := by
  by_cases hb : norm2 (fun t => b t - Aop (x0.getD (fun _ => 0)) t) = 0
  · have heq2 : some (x0.getD (fun _ => 0), ([0] : List ℝ)) = some (xr, h) := by
      rw [← heq]
      show _ = (if norm2 (fun t => b t - Aop (x0.getD (fun _ => 0)) t) = 0
        then some (x0.getD (fun _ => 0), [0])
        else gmresLoop Aop tol (x0.getD (fun _ => 0)) m
          (gmresInit Aop b x0) 0 m)
      rw [if_pos hb]
    have : h = [0] := (congrArg Prod.snd (Option.some_inj.1 heq2)).symm
    rw [this]
    simp
  · have heq2 : gmresLoop Aop tol (x0.getD (fun _ => 0)) m
        (gmresInit Aop b x0) 0 m = some (xr, h) := by
      rw [← heq]
      show _ = (if norm2 (fun t => b t - Aop (x0.getD (fun _ => 0)) t) = 0
        then some (x0.getD (fun _ => 0), [0])
        else gmresLoop Aop tol (x0.getD (fun _ => 0)) m
          (gmresInit Aop b x0) 0 m)
      rw [if_neg hb]
    exact gmresLoop_resvec_ne_nil Aop tol _ m m 0 (gmresInit Aop b x0)
      (by simp [gmresInit, initState]) xr h heq2

/-- For the zero matrix every candidate has the same residual, so the
minimum-norm least-squares solution is the zero vector. -/
theorem lstsq_zero_matrix {p q : ℕ} (v : Fin p → ℝ) :
    lstsq (0 : Matrix (Fin p) (Fin q) ℝ) v = 0 := by
  have hspec := lstsq_isMinNormLS (0 : Matrix (Fin p) (Fin q) ℝ) v
  have hconst : ∀ z w : Fin q → ℝ, err2 0 v z ≤ err2 0 v w := by
    intro z w
    simp [err2, Matrix.zero_mulVec]
  have hle : normSq (lstsq (0 : Matrix (Fin p) (Fin q) ℝ) v)
      ≤ normSq (0 : Fin q → ℝ) := hspec.2 0 (hconst 0)
  have h0 : normSq (0 : Fin q → ℝ) = 0 := by simp [normSq]
  rw [h0] at hle
  have hnn : ∀ i : Fin q, (0 : ℝ)
      ≤ (lstsq (0 : Matrix (Fin p) (Fin q) ℝ) v) i ^ 2 := fun i => sq_nonneg _
  have hsum : ∑ i, (lstsq (0 : Matrix (Fin p) (Fin q) ℝ) v) i ^ 2 = 0 :=
    le_antisymm hle (Finset.sum_nonneg (fun i _ => hnn i))
  funext i
  have hterm : (lstsq (0 : Matrix (Fin p) (Fin q) ℝ) v) i ^ 2 = 0 :=
    (Finset.sum_eq_zero_iff_of_nonneg (fun i _ => hnn i)).1 hsum i
      (Finset.mem_univ i)
  exact sq_eq_zero_iff.1 hterm

/-- Dropping an all-zero last row of the design matrix (and the matching
entry of the target) shifts every squared residual by the same constant,
so a minimum-norm least-squares solution of the truncated problem also
solves the full one. -/
theorem isMinNormLS_drop_zero_row {p q : ℕ}
    (M : Matrix (Fin (p + 1)) (Fin q) ℝ) (v : Fin (p + 1) → ℝ)
    (hrow : ∀ k, M (Fin.last p) k = 0) (y : Fin q → ℝ)
    (h : IsMinNormLS (Matrix.of fun (i : Fin p) k => M i.castSucc k)
      (fun i => v i.castSucc) y) :
    IsMinNormLS M v y := by
  have hmv : ∀ (z : Fin q → ℝ) (i : Fin p),
      (Matrix.of fun (i : Fin p) k => M i.castSucc k).mulVec z i
        = M.mulVec z i.castSucc := by
    intro z i
    simp [Matrix.mulVec, Matrix.dotProduct]
  have hlast : ∀ z : Fin q → ℝ, M.mulVec z (Fin.last p) = 0 := by
    intro z
    simp [Matrix.mulVec, Matrix.dotProduct, hrow]
  have herr : ∀ z, err2 M v z
      = err2 (Matrix.of fun (i : Fin p) k => M i.castSucc k)
          (fun i => v i.castSucc) z + v (Fin.last p) ^ 2 := by
    intro z
    rw [err2, err2, Fin.sum_univ_castSucc, hlast z]
    have hterm : ∀ i : Fin p,
        (M.mulVec z i.castSucc - v i.castSucc) ^ 2
          = ((Matrix.of fun (i : Fin p) k => M i.castSucc k).mulVec z i
              - v i.castSucc) ^ 2 := by
      intro i
      rw [hmv]
    rw [Finset.sum_congr rfl (fun i _ => hterm i)]
    ring
  constructor
  · intro z
    have h1 := h.1 z
    rw [herr, herr]
    linarith
  · intro z hz
    refine h.2 z ?_
    intro w
    have h1 := hz w
    rw [herr z, herr w] at h1
    linarith

/-- Shifting a history sequence by one: the flattened tails over
`range (k+1)` of the extended sequence split off the new head. -/
theorem flatten_tails_shift (rv : List ℝ) (hs : ℕ → List ℝ) (k : ℕ) :
    ((List.range (k + 1)).map
        (fun i => (if i = 0 then rv else hs (i - 1)).tail)).flatten
      = rv.tail
        ++ ((List.range k).map (fun i => (hs i).tail)).flatten := by
  rw [List.range_succ_eq_map, List.map_cons, List.flatten_cons, List.map_map]
  have hfun : ((fun i => (if i = 0 then rv else hs (i - 1)).tail)
      ∘ Nat.succ) = fun i => (hs i).tail := by
    funext i
    simp
  rw [hfun]
  simp

/-- One inner call of the restart loop never sees an empty running
history afterwards, and the loop body matches this recursion.  This is
the generalised (mid-loop, `cycle ≥ 1`) shape of the restart recursion:
the returned history is the accumulator followed by the tails of the
histories of the executed cycles, the controller continued exactly while
the running history's last entry exceeded `tol`, and it stopped early
only with that last entry at most `tol`. -/
theorem restartLoop_tail_structure {n : ℕ} (Aop : (Fin n → ℝ) → (Fin n → ℝ))
    (b : Fin n → ℝ) (tol : ℝ) (m : ℕ) :
    ∀ (rem cycle : ℕ), cycle ≠ 0 → ∀ (xcur x : Fin n → ℝ) (acc H : List ℝ),
      restartLoop Aop b tol m xcur acc cycle rem = some (x, H) →
      ∃ (k : ℕ) (xs : ℕ → Fin n → ℝ) (hs : ℕ → List ℝ),
        k ≤ rem ∧ xs 0 = xcur ∧
        (∀ i, i < k → gmres Aop b (some (xs i)) tol m
          = some (xs (i + 1), hs i)) ∧
        x = xs k ∧
        H = acc ++ ((List.range k).map (fun i => (hs i).tail)).flatten ∧
        (∀ i, i + 1 < k → ∃ l,
          (acc ++ ((List.range (i + 1)).map
            (fun t => (hs t).tail)).flatten).getLast? = some l ∧ ¬l ≤ tol) ∧
        (k < rem → 1 ≤ k ∧ ∃ l,
          (acc ++ ((List.range k).map
            (fun t => (hs t).tail)).flatten).getLast? = some l ∧ l ≤ tol) := by
  intro rem
  induction rem with
  | zero =>
      intro cycle hcy xcur x acc H heq
      have heq2 : (some (xcur, acc) : Option ((Fin n → ℝ) × List ℝ))
          = some (x, H) := heq
      injection heq2 with h3
      have h4 : xcur = x := congrArg Prod.fst h3
      have h5 : acc = H := congrArg Prod.snd h3
      refine ⟨0, fun _ => xcur, fun _ => [], le_rfl, rfl,
        fun i hi => absurd hi (by omega), h4.symm, ?_,
        fun i hi => absurd hi (by omega), fun hlt => absurd hlt (by omega)⟩
      rw [← h5]
      simp
  | succ rem ih =>
      intro cycle hcy xcur x acc H heq
      simp only [restartLoop] at heq
      cases hg : gmres Aop b (some xcur) tol m with
      | none =>
          rw [hg] at heq
          exact Option.noConfusion heq
      | some p =>
          obtain ⟨x1, rv⟩ := p
          rw [hg] at heq
          replace heq : (match (acc ++ if cycle = 0
                then rv else rv.tail).getLast? with
              | none => none
              | some l =>
                  if l ≤ tol
                  then some (x1, acc ++ if cycle = 0 then rv else rv.tail)
                  else restartLoop Aop b tol m x1
                    (acc ++ if cycle = 0 then rv else rv.tail)
                    (cycle + 1) rem)
              = some (x, H) := heq
          rw [if_neg hcy] at heq
          cases hlast : (acc ++ rv.tail).getLast? with
          | none =>
              rw [hlast] at heq
              exact Option.noConfusion heq
          | some l =>
              rw [hlast] at heq
              replace heq : (if l ≤ tol then some (x1, acc ++ rv.tail)
                  else restartLoop Aop b tol m x1 (acc ++ rv.tail)
                    (cycle + 1) rem)
                  = some (x, H) := heq
              by_cases hltol : l ≤ tol
              · rw [if_pos hltol] at heq
                injection heq with h3
                refine ⟨1, fun i => if i = 0 then xcur else x1, fun _ => rv,
                  by omega, by simp, ?_, ?_, ?_,
                  fun i hi => absurd hi (by omega), ?_⟩
                · intro i hi
                  have hi0 : i = 0 := by omega
                  subst hi0
                  simpa using hg
                · have h4 : x1 = x := congrArg Prod.fst h3
                  rw [← h4]
                  simp
                · have h5 : acc ++ rv.tail = H := congrArg Prod.snd h3
                  rw [← h5]
                  simp
                · intro _
                  refine ⟨le_rfl, l, ?_, hltol⟩
                  simpa using hlast
              · rw [if_neg hltol] at heq
                obtain ⟨k, xs, hs, hk, hxs0, hchain, hx, hH, hmid, hstop⟩ :=
                  ih (cycle + 1) (by omega) x1 x (acc ++ rv.tail) H heq
                refine ⟨k + 1, fun i => if i = 0 then xcur else xs (i - 1),
                  fun i => if i = 0 then rv else hs (i - 1),
                  by omega, by simp, ?_, ?_, ?_, ?_, ?_⟩
                · intro i hi
                  rcases Nat.eq_zero_or_pos i with hi0 | hipos
                  · subst hi0
                    simpa [hxs0] using hg
                  · obtain ⟨t, rfl⟩ : ∃ t, i = t + 1 :=
                      ⟨i - 1, by omega⟩
                    have := hchain t (by omega)
                    simpa using this
                · rw [hx]
                  simp
                · rw [hH]
                  beta_reduce
                  rw [flatten_tails_shift, List.append_assoc]
                · intro i hi
                  rcases Nat.eq_zero_or_pos i with hi0 | hipos
                  · subst hi0
                    refine ⟨l, ?_, hltol⟩
                    beta_reduce
                    rw [flatten_tails_shift]
                    simpa using hlast
                  · obtain ⟨t, rfl⟩ : ∃ t, i = t + 1 :=
                      ⟨i - 1, by omega⟩
                    obtain ⟨l2, hl2, hl2t⟩ := hmid t (by omega)
                    refine ⟨l2, ?_, hl2t⟩
                    beta_reduce
                    rw [flatten_tails_shift, ← List.append_assoc]
                    exact hl2
                · intro hlt
                  obtain ⟨hk1, l2, hl2, hl2t⟩ := hstop (by omega)
                  refine ⟨by omega, l2, ?_, hl2t⟩
                  beta_reduce
                  rw [flatten_tails_shift, ← List.append_assoc]
                  exact hl2

/-- Full behaviour of `gmres` at a basis breakdown (`‖w‖ = 0` at step
`j`, no earlier exit, `tol ≥ 0`): the next basis column is never written
(no division by the zero norm), the recorded residual at step `j` is
exactly `0`, and the solver exits at step `j` through the triangular
solve over the first `j + 1` columns, returning its result when the
block is invertible and raising `LinAlgError` (`none`) otherwise. -/
theorem gmres_breakdown_char {n : ℕ} (Aop : (Fin n → ℝ) → (Fin n → ℝ))
    (b : Fin n → ℝ) (x0 : Option (Fin n → ℝ)) (tol : ℝ) (j m : ℕ)
    (hbeta : norm2 (fun t => b t - Aop (x0.getD (fun _ => 0)) t) ≠ 0)
    (hj : j < m) (htol : 0 ≤ tol)
    (hprev : ∀ i, i < j → ¬(resAt Aop (gmresInit Aop b x0) i ≤ tol))
    (hbreak : stepHnorm Aop (stateAt Aop (gmresInit Aop b x0) j) j = 0) :
    (stateAt Aop (gmresInit Aop b x0) (j + 1)).V (j + 1) = (fun _ => 0) ∧
    resAt Aop (gmresInit Aop b x0) j = 0 ∧
    gmres Aop b x0 tol m = (linSolve
        (Matrix.of fun i k : Fin (j + 1) =>
          (stateAt Aop (gmresInit Aop b x0) (j + 1)).H i k)
        (fun i : Fin (j + 1) =>
          (stateAt Aop (gmresInit Aop b x0) (j + 1)).g i)).map
      (fun y => (fun t => (x0.getD (fun _ => 0)) t
          + ∑ i : Fin (j + 1),
              y i * (stateAt Aop (gmresInit Aop b x0) (j + 1)).V i t,
        (stateAt Aop (gmresInit Aop b x0) (j + 1)).resvec)) := by
  have hres0 : resAt Aop (gmresInit Aop b x0) j = 0 :=
    resAt_breakdown Aop _ _ j hbreak
  refine ⟨stateAt_V_breakdown Aop _ _ j hbreak, hres0, ?_⟩
  exact gmres_exit_char Aop b x0 tol j m hbeta hj hprev (by rw [hres0]; exact htol)

/-- Full behaviour of `gmres` on loop exhaustion: it returns normally,
with `x = x0 + V y` where `y` is a minimum-norm least-squares solution
of the FULL `(m+1) × m` rotated Hessenberg system (the code solves the
`m × m` truncation, whose last row drop is harmless because the final
row of the rotated Hessenberg is identically zero). -/
theorem gmres_exhaust_minNorm {n : ℕ} (Aop : (Fin n → ℝ) → (Fin n → ℝ))
    (b : Fin n → ℝ) (x0 : Option (Fin n → ℝ)) (tol : ℝ) (m : ℕ)
    (hbeta : norm2 (fun t => b t - Aop (x0.getD (fun _ => 0)) t) ≠ 0)
    (hres : ∀ j, j < m → ¬(resAt Aop (gmresInit Aop b x0) j ≤ tol)) :
    gmres Aop b x0 tol m = some
      (fun t => (x0.getD (fun _ => 0)) t
        + ∑ i : Fin m,
            lstsq (Matrix.of fun i k : Fin m =>
                (stateAt Aop (gmresInit Aop b x0) m).H i k)
              (fun i : Fin m => (stateAt Aop (gmresInit Aop b x0) m).g i) i
            * (stateAt Aop (gmresInit Aop b x0) m).V i t,
        (stateAt Aop (gmresInit Aop b x0) m).resvec) ∧
    IsMinNormLS
      (Matrix.of fun (i : Fin (m + 1)) (k : Fin m) =>
        (stateAt Aop (gmresInit Aop b x0) m).H i k)
      (fun i : Fin (m + 1) => (stateAt Aop (gmresInit Aop b x0) m).g i)
      (lstsq (Matrix.of fun i k : Fin m =>
          (stateAt Aop (gmresInit Aop b x0) m).H i k)
        (fun i : Fin m => (stateAt Aop (gmresInit Aop b x0) m).g i)) := by
  refine ⟨gmres_exhaust_char Aop b x0 tol m hbeta hres, ?_⟩
  have hinv := stateAt_inv Aop
    (fun t => b t - Aop (x0.getD (fun _ => 0)) t)
    (norm2 (fun t => b t - Aop (x0.getD (fun _ => 0)) t)) m
  apply isMinNormLS_drop_zero_row
  · intro k
    show (stateAt Aop (gmresInit Aop b x0) m).H
      ((Fin.last m : Fin (m + 1)) : ℕ) (k : ℕ) = 0
    rw [Fin.val_last]
    have hk := k.isLt
    by_cases hk1 : (k : ℕ) + 1 = m
    · have hsub := hinv.2.2.2.1 (k : ℕ) (by omega)
      rwa [hk1] at hsub
    · exact hinv.2.2.1 m (k : ℕ) (by omega)
  · have htr : (Matrix.of fun (i : Fin m) (k : Fin m) =>
        (Matrix.of fun (i : Fin (m + 1)) (k : Fin m) =>
          (stateAt Aop (gmresInit Aop b x0) m).H i k) i.castSucc k)
        = (Matrix.of fun i k : Fin m =>
            (stateAt Aop (gmresInit Aop b x0) m).H i k) := by
      ext i k
      simp
    have hv : (fun i : Fin m => (fun i : Fin (m + 1) =>
        (stateAt Aop (gmresInit Aop b x0) m).g i) i.castSucc)
        = fun i : Fin m => (stateAt Aop (gmresInit Aop b x0) m).g i := by
      funext i
      simp
    rw [htr, hv]
    exact lstsq_isMinNormLS _ _

/-- With nonempty inner histories available, a single restart cycle
returns literally what the inner solver returns. -/
theorem gmres_restart_one_cycle {n : ℕ} (Aop : (Fin n → ℝ) → (Fin n → ℝ))
    (b : Fin n → ℝ) (tol : ℝ) (m : ℕ) :
    gmres_restart Aop b none m tol 1 = gmres Aop b none tol m := by
  have hx : gmres Aop b (some (fun _ => 0)) tol m
      = gmres Aop b none tol m := rfl
  show restartLoop Aop b tol m (fun _ => 0) [] 0 1 = gmres Aop b none tol m
  simp only [restartLoop]
  cases hg : gmres Aop b (some (fun _ => 0)) tol m with
  | none =>
      rw [← hx, hg]
  | some p =>
      obtain ⟨x1, rv⟩ := p
      have hne : rv ≠ [] := gmres_resvec_ne_nil Aop b _ tol m x1 rv hg
      obtain ⟨l, hl⟩ : ∃ l, rv.getLast? = some l := by
        cases hcl : rv.getLast? with
        | none => exact absurd (List.getLast?_eq_none_iff.1 hcl) hne
        | some l2 => exact ⟨l2, rfl⟩
      rw [← hx, hg]
      simp [hl]

/-- `maxcycles = 0`: the loop body never runs and the initial guess is
returned with an empty history. -/
theorem gmres_restart_zero_cycles {n : ℕ} (Aop : (Fin n → ℝ) → (Fin n → ℝ))
    (b : Fin n → ℝ) (x0 : Option (Fin n → ℝ)) (m : ℕ) (tol : ℝ) :
    gmres_restart Aop b x0 m tol 0 = some (x0.getD (fun _ => 0), []) := rfl

/-- Structure of a successful `gmres_restart` run: there is a chain of
`k` inner solves; the returned history is cycle 0's history followed by
the tails of the later cycles' histories (`catHist`); the controller
continued past a cycle exactly while the running history's last entry
exceeded `tol`, and stopped before exhausting `maxcycles` only with the
last entry at most `tol`. -/
theorem gmres_restart_history_structure {n : ℕ}
    (Aop : (Fin n → ℝ) → (Fin n → ℝ)) (b : Fin n → ℝ)
    (x0 : Option (Fin n → ℝ)) (m : ℕ) (tol : ℝ) (C : ℕ) (hC : 1 ≤ C)
    (x : Fin n → ℝ) (H : List ℝ)
    (heq : gmres_restart Aop b x0 m tol C = some (x, H)) :
    ∃ (k : ℕ) (xs : ℕ → Fin n → ℝ) (hs : ℕ → List ℝ),
      1 ≤ k ∧ k ≤ C ∧ xs 0 = x0.getD (fun _ => 0) ∧
      (∀ i, i < k → gmres Aop b (some (xs i)) tol m
        = some (xs (i + 1), hs i)) ∧
      x = xs k ∧ H = catHist hs (k - 1) ∧
      (∀ i, i + 1 < k → ∃ l,
        (catHist hs i).getLast? = some l ∧ ¬l ≤ tol) ∧
      (k < C → ∃ l, (catHist hs (k - 1)).getLast? = some l ∧ l ≤ tol) := by
  obtain ⟨C1, rfl⟩ : ∃ C1, C = C1 + 1 := ⟨C - 1, by omega⟩
  have heq0 : (match gmres Aop b (some (x0.getD (fun _ => 0))) tol m with
      | none => none
      | some (x1, rvec) =>
          match (([] : List ℝ)
              ++ if (0 : ℕ) = 0 then rvec else rvec.tail).getLast? with
          | none => none
          | some l =>
              if l ≤ tol
              then some (x1,
                ([] : List ℝ) ++ if (0 : ℕ) = 0 then rvec else rvec.tail)
              else restartLoop Aop b tol m x1
                (([] : List ℝ) ++ if (0 : ℕ) = 0 then rvec else rvec.tail)
                (0 + 1) C1)
      = some (x, H) := heq
  cases hg : gmres Aop b (some (x0.getD (fun _ => 0))) tol m with
  | none =>
      rw [hg] at heq0
      exact Option.noConfusion heq0
  | some p =>
      obtain ⟨x1, rv⟩ := p
      rw [hg] at heq0
      replace heq0 : (match (([] : List ℝ)
            ++ if (0 : ℕ) = 0 then rv else rv.tail).getLast? with
          | none => none
          | some l =>
              if l ≤ tol
              then some (x1,
                ([] : List ℝ) ++ if (0 : ℕ) = 0 then rv else rv.tail)
              else restartLoop Aop b tol m x1
                (([] : List ℝ) ++ if (0 : ℕ) = 0 then rv else rv.tail)
                (0 + 1) C1)
          = some (x, H) := heq0
      rw [if_pos rfl, List.nil_append] at heq0
      cases hlast : rv.getLast? with
      | none =>
          rw [hlast] at heq0
          exact Option.noConfusion heq0
      | some l =>
          rw [hlast] at heq0
          replace heq0 : (if l ≤ tol then some (x1, rv)
              else restartLoop Aop b tol m x1 rv (0 + 1) C1)
              = some (x, H) := heq0
          by_cases hltol : l ≤ tol
          · rw [if_pos hltol] at heq0
            injection heq0 with h3
            have h4 : x1 = x := congrArg Prod.fst h3
            have h5 : rv = H := congrArg Prod.snd h3
            refine ⟨1, fun i => if i = 0 then x0.getD (fun _ => 0) else x1,
              fun _ => rv, le_rfl, by omega, by simp, ?_, by simp [h4],
              ?_, fun i hi => absurd hi (by omega), fun _ => ⟨l, ?_, hltol⟩⟩
            · intro i hi
              have hi0 : i = 0 := by omega
              subst hi0
              simpa using hg
            · rw [← h5]
              simp [catHist]
            · simp only [catHist]
              simpa using hlast
          · rw [if_neg hltol] at heq0
            obtain ⟨k, xs, hs, hk, hxs0, hchain, hx, hH, hmid, hstop⟩ :=
              restartLoop_tail_structure Aop b tol m C1 (0 + 1) (by omega)
                x1 x rv H heq0
            have hcat : ∀ i : ℕ, catHist
                (fun t => if t = 0 then rv else hs (t - 1)) i
                = rv ++ ((List.range i).map
                    (fun t => (hs t).tail)).flatten := by
              intro i
              simp [catHist]
            refine ⟨k + 1, fun i => if i = 0 then x0.getD (fun _ => 0)
                else xs (i - 1),
              fun i => if i = 0 then rv else hs (i - 1),
              by omega, by omega, by simp, ?_, ?_, ?_, ?_, ?_⟩
            · intro i hi
              rcases Nat.eq_zero_or_pos i with hi0 | hipos
              · subst hi0
                simpa [hxs0] using hg
              · obtain ⟨t, rfl⟩ : ∃ t, i = t + 1 := ⟨i - 1, by omega⟩
                have := hchain t (by omega)
                simpa using this
            · rw [hx]
              simp
            · rw [hH, Nat.add_sub_cancel, hcat k]
            · intro i hi
              rcases Nat.eq_zero_or_pos i with hi0 | hipos
              · subst hi0
                refine ⟨l, ?_, hltol⟩
                rw [hcat 0]
                simpa using hlast
              · obtain ⟨t, rfl⟩ : ∃ t, i = t + 1 := ⟨i - 1, by omega⟩
                obtain ⟨l2, hl2, hl2t⟩ := hmid t (by omega)
                refine ⟨l2, ?_, hl2t⟩
                rw [hcat (t + 1)]
                exact hl2
            · intro hlt
              obtain ⟨hk1, l2, hl2, hl2t⟩ := hstop (by omega)
              refine ⟨l2, ?_, hl2t⟩
              rw [Nat.add_sub_cancel, hcat k]
              exact hl2


theorem givens_one_one :
    givens_rotation 1 1 = ((Real.sqrt 2)⁻¹, -(Real.sqrt 2)⁻¹) := by
  rw [givens_rotation]
  norm_num

theorem hr0_Abug :
    (fun t => bbug t - Abug.mulVec (fun _ => 0) t) = bbug := by
  funext t
  simp [Abug, bbug, Matrix.mulVec, Matrix.dotProduct]

theorem hbeta_Abug : norm2 bbug = 1 := by
  simp [norm2, bbug, Fin.sum_univ_two]

theorem st0_eq :
    gmresInit Abug.mulVec bbug none = initState 2 bbug 1 := by
  rw [gmresInit]
  simp only [Option.getD_none]
  rw [hr0_Abug, hbeta_Abug]

theorem st0_V0 : (initState 2 bbug 1).V 0 = ![1, 0] := by
  funext t
  fin_cases t <;> simp [initState, bbug]

theorem st0_g0 : (initState 2 bbug 1).g 0 = 1 := by
  simp [initState]

theorem st0_g1 : (initState 2 bbug 1).g 1 = 0 := by
  simp [initState, Function.update_apply]

theorem arnoldi_snd_zero {n : ℕ} (Aop : (Fin n → ℝ) → (Fin n → ℝ))
    (st : GState n) :
    stepW Aop st 0
      = fun t => Aop (st.V 0) t - dotp (st.V 0) (Aop (st.V 0)) * st.V 0 t := by
  simp [stepW, arnoldi, mgsStep, List.range_succ, List.range_zero,
    List.foldl_append, List.foldl_cons, List.foldl_nil]

theorem stepH2_zero_00 {n : ℕ} (Aop : (Fin n → ℝ) → (Fin n → ℝ))
    (st : GState n) :
    stepH2 Aop st 0 0 0 = dotp (st.V 0) (Aop (st.V 0)) := by
  simp [stepH2, applyRots, arnoldi, mgsStep, upd2_apply, List.range_succ,
    List.range_zero, List.foldl_append, List.foldl_cons, List.foldl_nil]

theorem hAv : Abug.mulVec ![1, 0] = ![1, 1] := by
  funext t
  fin_cases t <;>
    simp [Abug, Matrix.mulVec, Matrix.dotProduct, Fin.sum_univ_two]

theorem hdot2 : dotp ((initState 2 bbug 1).V 0)
    (Abug.mulVec ((initState 2 bbug 1).V 0)) = 1 := by
  rw [st0_V0, hAv]
  norm_num [dotp, Fin.sum_univ_two]

theorem hstepW2 : stepW Abug.mulVec (initState 2 bbug 1) 0 = ![0, 1] := by
  rw [arnoldi_snd_zero, hdot2, st0_V0, hAv]
  funext t
  fin_cases t <;> norm_num

theorem hstepHnorm2 : stepHnorm Abug.mulVec (initState 2 bbug 1) 0 = 1 := by
  rw [stepHnorm, hstepW2]
  simp [norm2, Fin.sum_univ_two]

theorem hC2 : stepC Abug.mulVec (initState 2 bbug 1) 0 = (Real.sqrt 2)⁻¹ := by
  rw [stepC, stepH2_zero_00, stepH2_subdiag, hstepHnorm2, hdot2,
    givens_one_one]

theorem hS2 : stepS Abug.mulVec (initState 2 bbug 1) 0
    = -(Real.sqrt 2)⁻¹ := by
  rw [stepS, stepH2_zero_00, stepH2_subdiag, hstepHnorm2, hdot2,
    givens_one_one]

theorem hresAt2 : resAt Abug.mulVec (initState 2 bbug 1) 0
    = (Real.sqrt 2)⁻¹ := by
  rw [resAt_eq]
  show |-stepS Abug.mulVec (initState 2 bbug 1) 0
        * (initState 2 bbug 1).g 0
      + stepC Abug.mulVec (initState 2 bbug 1) 0
        * (initState 2 bbug 1).g 1| = _
  rw [hS2, hC2, st0_g0, st0_g1]
  have hsimp : -(-(Real.sqrt 2)⁻¹) * 1 + (Real.sqrt 2)⁻¹ * 0
      = (Real.sqrt 2)⁻¹ := by ring
  rw [hsimp, abs_of_nonneg (by positivity)]



theorem st1_H00 : (stateAt Abug.mulVec (initState 2 bbug 1) 1).H 0 0 = 0 := by
  show (gmresStep Abug.mulVec (initState 2 bbug 1) 0).H 0 0 = 0
  show upd2 (upd2 (stepH2 Abug.mulVec (initState 2 bbug 1) 0) 0 0
      (stepC Abug.mulVec (initState 2 bbug 1) 0
          * stepH2 Abug.mulVec (initState 2 bbug 1) 0 0 0
        + stepS Abug.mulVec (initState 2 bbug 1) 0
          * stepH2 Abug.mulVec (initState 2 bbug 1) 0 1 0)) 1 0 0 0 0 = 0
  rw [upd2_apply, if_neg (by omega), upd2_apply, if_pos ⟨rfl, rfl⟩,
    stepH2_zero_00, hdot2, hC2, hS2]
  have hsub : stepH2 Abug.mulVec (initState 2 bbug 1) 0 1 0 = 1 := by
    rw [stepH2_subdiag, hstepHnorm2]
  rw [hsub]
  ring

theorem st1_g0 : (stateAt Abug.mulVec (initState 2 bbug 1) 1).g 0
    = (Real.sqrt 2)⁻¹ := by
  show (gmresStep Abug.mulVec (initState 2 bbug 1) 0).g 0 = _
  show Function.update (Function.update (initState 2 bbug 1).g 1
      (-stepS Abug.mulVec (initState 2 bbug 1) 0 * (initState 2 bbug 1).g 0
        + stepC Abug.mulVec (initState 2 bbug 1) 0
          * (initState 2 bbug 1).g 1)) 0
      (stepC Abug.mulVec (initState 2 bbug 1) 0 * (initState 2 bbug 1).g 0
        + stepS Abug.mulVec (initState 2 bbug 1) 0
          * (initState 2 bbug 1).g 1) 0 = _
  rw [Function.update_same, hC2, hS2, st0_g0, st0_g1]
  ring

theorem st1_resvec : (stateAt Abug.mulVec (initState 2 bbug 1) 1).resvec
    = [1, (Real.sqrt 2)⁻¹] := by
  rw [stateAt_resvec]
  show [1] ++ (List.range 1).map (resAt Abug.mulVec (initState 2 bbug 1)) = _
  rw [show List.range 1 = [0] from rfl, List.map_cons, List.map_nil, hresAt2]
  rfl

theorem sqrt_two_inv_gt : (1e-8 : ℝ) < (Real.sqrt 2)⁻¹ := by
  have h2 : Real.sqrt 2 ≤ 2 := by
    nlinarith [Real.sq_sqrt (show (0:ℝ) ≤ 2 by norm_num), Real.sqrt_nonneg 2]
  have h3 : (0:ℝ) < Real.sqrt 2 := Real.sqrt_pos.2 (by norm_num)
  have h4 : (2:ℝ)⁻¹ ≤ (Real.sqrt 2)⁻¹ := by
    exact inv_anti₀ h3 h2
  have h5 : (1e-8 : ℝ) < 2⁻¹ := by norm_num
  linarith



theorem hbeta_run : norm2 (fun t => bbug t
    - Abug.mulVec ((none : Option (Fin 2 → ℝ)).getD (fun _ => 0)) t) = 1 := by
  simp only [Option.getD_none]
  rw [hr0_Abug, hbeta_Abug]

theorem hres_run : ∀ j, j < 1 →
    ¬(resAt Abug.mulVec (gmresInit Abug.mulVec bbug none) j ≤ (1e-8 : ℝ)) := by
  intro j hj
  have hj0 : j = 0 := by omega
  subst hj0
  rw [st0_eq, hresAt2]
  intro hcon
  have := sqrt_two_inv_gt
  linarith

theorem gmres_Abug_run :
    gmres Abug.mulVec bbug none (1e-8) 1
      = some (fun _ => 0, [1, (Real.sqrt 2)⁻¹]) := by
  rw [gmres_exhaust_char Abug.mulVec bbug none (1e-8) 1
    (by rw [hbeta_run]; norm_num) hres_run]
  rw [st0_eq]
  have hmat : (Matrix.of fun i k : Fin 1 =>
      (stateAt Abug.mulVec (initState 2 bbug 1) 1).H i k)
      = (0 : Matrix (Fin 1) (Fin 1) ℝ) := by
    ext i k
    fin_cases i
    fin_cases k
    simpa using st1_H00
  rw [hmat, lstsq_zero_matrix]
  have hx : (fun t => ((none : Option (Fin 2 → ℝ)).getD (fun _ => 0)) t
      + ∑ i : Fin 1, (0 : Fin 1 → ℝ) i
          * (stateAt Abug.mulVec (initState 2 bbug 1) 1).V i t)
      = fun _ : Fin 2 => (0 : ℝ) := by
    funext t
    simp
  rw [hx, st1_resvec]



theorem gmres_Abug_some_zero :
    gmres Abug.mulVec bbug (some (fun _ => 0)) (1e-8) 1
      = some (fun _ => 0, [1, (Real.sqrt 2)⁻¹]) := by
  rw [show gmres Abug.mulVec bbug (some (fun _ => 0)) (1e-8) 1
    = gmres Abug.mulVec bbug none (1e-8) 1 from rfl, gmres_Abug_run]

theorem restart_Abug_run :
    gmres_restart Abug.mulVec bbug none 1 (1e-8) 2
      = some (fun _ => 0,
          [1, (Real.sqrt 2)⁻¹, (Real.sqrt 2)⁻¹]) := by
  have hnotle : ¬((Real.sqrt 2)⁻¹ ≤ (1e-8 : ℝ)) := by
    have := sqrt_two_inv_gt
    intro hcon
    linarith
  show restartLoop Abug.mulVec bbug (1e-8) 1 (fun _ => 0) [] 0 2 = _
  simp only [restartLoop, gmres_Abug_some_zero]
  simp [hnotle, List.getLast?_cons_cons, List.getLast?_singleton]

theorem sqrt_nat_pos {n : ℕ} (hn : 0 < n) : 0 < Real.sqrt n := by
  apply Real.sqrt_pos.2
  exact_mod_cast hn

theorem hr0_ones {n : ℕ} :
    (fun t => (fun _ : Fin n => (1 : ℝ)) t
      - (1 : Matrix (Fin n) (Fin n) ℝ).mulVec
          ((none : Option (Fin n → ℝ)).getD (fun _ => 0)) t)
      = fun _ => 1 := by
  funext t
  simp [Matrix.one_mulVec]

theorem hbeta_ones {n : ℕ} :
    norm2 (fun _ : Fin n => (1 : ℝ)) = Real.sqrt n := by
  simp [norm2]

theorem st0_ones {n : ℕ} :
    gmresInit (1 : Matrix (Fin n) (Fin n) ℝ).mulVec (fun _ => 1) none
      = initState n (fun _ => 1) (Real.sqrt n) := by
  rw [gmresInit, hr0_ones, hbeta_ones]

theorem V0_ones {n : ℕ} :
    (initState n (fun _ : Fin n => (1 : ℝ)) (Real.sqrt n)).V 0
      = fun _ => 1 / Real.sqrt n := by
  show Function.update (fun _ _ => 0) 0
    (fun t => (fun _ : Fin n => (1 : ℝ)) t / Real.sqrt n) 0 = _
  rw [Function.update_same]

theorem dot_ones {n : ℕ} (hn : 0 < n) :
    dotp (fun _ : Fin n => 1 / Real.sqrt n) (fun _ => 1 / Real.sqrt n)
      = 1 := by
  have h : Real.sqrt n * Real.sqrt n = n := Real.mul_self_sqrt (by positivity)
  have hne : Real.sqrt n ≠ 0 := ne_of_gt (sqrt_nat_pos hn)
  rw [dotp]
  rw [Finset.sum_const, Finset.card_univ, Fintype.card_fin]
  rw [nsmul_eq_mul]
  field_simp



theorem dotVV_ones {n : ℕ} (hn : 0 < n) :
    dotp ((initState n (fun _ : Fin n => (1 : ℝ)) (Real.sqrt n)).V 0)
      ((1 : Matrix (Fin n) (Fin n) ℝ).mulVec
        ((initState n (fun _ : Fin n => (1 : ℝ)) (Real.sqrt n)).V 0)) = 1 := by
  rw [Matrix.one_mulVec, V0_ones]
  exact dot_ones hn

theorem stepW_ones {n : ℕ} (hn : 0 < n) :
    stepW (1 : Matrix (Fin n) (Fin n) ℝ).mulVec
      (initState n (fun _ => 1) (Real.sqrt n)) 0 = fun _ => 0 := by
  rw [arnoldi_snd_zero]
  funext t
  rw [Matrix.one_mulVec]
  have hd : dotp ((initState n (fun _ : Fin n => (1 : ℝ)) (Real.sqrt n)).V 0)
      ((initState n (fun _ : Fin n => (1 : ℝ)) (Real.sqrt n)).V 0) = 1 := by
    rw [V0_ones]
    exact dot_ones hn
  rw [hd]
  ring

theorem stepHnorm_ones {n : ℕ} (hn : 0 < n) :
    stepHnorm (1 : Matrix (Fin n) (Fin n) ℝ).mulVec
      (initState n (fun _ => 1) (Real.sqrt n)) 0 = 0 := by
  rw [stepHnorm, stepW_ones hn]
  simp [norm2]

theorem stepC_ones {n : ℕ} (hn : 0 < n) :
    stepC (1 : Matrix (Fin n) (Fin n) ℝ).mulVec
      (initState n (fun _ => 1) (Real.sqrt n)) 0 = 1 := by
  rw [stepC, stepH2_zero_00, stepH2_subdiag, stepHnorm_ones hn,
    dotVV_ones hn, givens_rotation_snd_zero]

theorem stepS_ones {n : ℕ} (hn : 0 < n) :
    stepS (1 : Matrix (Fin n) (Fin n) ℝ).mulVec
      (initState n (fun _ => 1) (Real.sqrt n)) 0 = 0 := by
  rw [stepS, stepH2_zero_00, stepH2_subdiag, stepHnorm_ones hn,
    dotVV_ones hn, givens_rotation_snd_zero]

theorem st1_H00_ones {n : ℕ} (hn : 0 < n) :
    (stateAt (1 : Matrix (Fin n) (Fin n) ℝ).mulVec
      (initState n (fun _ => 1) (Real.sqrt n)) 1).H 0 0 = 1 := by
  show upd2 (upd2 (stepH2 (1 : Matrix (Fin n) (Fin n) ℝ).mulVec
      (initState n (fun _ => 1) (Real.sqrt n)) 0) 0 0
      (stepC (1 : Matrix (Fin n) (Fin n) ℝ).mulVec
          (initState n (fun _ => 1) (Real.sqrt n)) 0
          * stepH2 (1 : Matrix (Fin n) (Fin n) ℝ).mulVec
              (initState n (fun _ => 1) (Real.sqrt n)) 0 0 0
        + stepS (1 : Matrix (Fin n) (Fin n) ℝ).mulVec
            (initState n (fun _ => 1) (Real.sqrt n)) 0
          * stepH2 (1 : Matrix (Fin n) (Fin n) ℝ).mulVec
              (initState n (fun _ => 1) (Real.sqrt n)) 0 1 0)) 1 0 0 0 0 = 1
  rw [upd2_apply, if_neg (by omega), upd2_apply, if_pos ⟨rfl, rfl⟩,
    stepH2_zero_00, stepH2_subdiag, dotVV_ones hn, stepC_ones hn,
    stepS_ones hn, stepHnorm_ones hn]
  ring

theorem st1_g0_ones {n : ℕ} (hn : 0 < n) :
    (stateAt (1 : Matrix (Fin n) (Fin n) ℝ).mulVec
      (initState n (fun _ => 1) (Real.sqrt n)) 1).g 0 = Real.sqrt n := by
  show Function.update (Function.update
      (initState n (fun _ : Fin n => (1 : ℝ)) (Real.sqrt n)).g 1
      (-stepS (1 : Matrix (Fin n) (Fin n) ℝ).mulVec
          (initState n (fun _ => 1) (Real.sqrt n)) 0
          * (initState n (fun _ : Fin n => (1 : ℝ)) (Real.sqrt n)).g 0
        + stepC (1 : Matrix (Fin n) (Fin n) ℝ).mulVec
            (initState n (fun _ => 1) (Real.sqrt n)) 0
          * (initState n (fun _ : Fin n => (1 : ℝ)) (Real.sqrt n)).g 1)) 0
      (stepC (1 : Matrix (Fin n) (Fin n) ℝ).mulVec
          (initState n (fun _ => 1) (Real.sqrt n)) 0
          * (initState n (fun _ : Fin n => (1 : ℝ)) (Real.sqrt n)).g 0
        + stepS (1 : Matrix (Fin n) (Fin n) ℝ).mulVec
            (initState n (fun _ => 1) (Real.sqrt n)) 0
          * (initState n (fun _ : Fin n => (1 : ℝ)) (Real.sqrt n)).g 1) 0
      = Real.sqrt n
  rw [Function.update_same, stepC_ones hn, stepS_ones hn]
  have hg0 : (initState n (fun _ : Fin n => (1 : ℝ)) (Real.sqrt n)).g 0
      = Real.sqrt n := by
    show Function.update (fun _ => (0 : ℝ)) 0 (Real.sqrt n) 0 = _
    rw [Function.update_same]
  have hg1 : (initState n (fun _ : Fin n => (1 : ℝ)) (Real.sqrt n)).g 1
      = 0 := by
    show Function.update (fun _ => (0 : ℝ)) 0 (Real.sqrt n) 1 = _
    rw [Function.update_noteq (by omega)]
  rw [hg0, hg1]
  ring

theorem st1_V0_ones {n : ℕ} (hn : 0 < n) :
    (stateAt (1 : Matrix (Fin n) (Fin n) ℝ).mulVec
      (initState n (fun _ => 1) (Real.sqrt n)) 1).V 0
      = fun _ => 1 / Real.sqrt n := by
  show (if stepHnorm (1 : Matrix (Fin n) (Fin n) ℝ).mulVec
      (initState n (fun _ => 1) (Real.sqrt n)) 0 = 0
    then (initState n (fun _ : Fin n => (1 : ℝ)) (Real.sqrt n)).V
    else Function.update
      (initState n (fun _ : Fin n => (1 : ℝ)) (Real.sqrt n)).V 1 _) 0
      = fun _ => 1 / Real.sqrt n
  rw [if_pos (stepHnorm_ones hn), V0_ones]

theorem st1_resvec_ones {n : ℕ} (hn : 0 < n) :
    (stateAt (1 : Matrix (Fin n) (Fin n) ℝ).mulVec
      (initState n (fun _ => 1) (Real.sqrt n)) 1).resvec
      = [Real.sqrt n, 0] := by
  rw [stateAt_resvec]
  have hres : resAt (1 : Matrix (Fin n) (Fin n) ℝ).mulVec
      (initState n (fun _ => 1) (Real.sqrt n)) 0 = 0 :=
    resAt_breakdown _ _ _ 0 (stepHnorm_ones hn)
  show [Real.sqrt n] ++ (List.range 1).map _ = _
  rw [show List.range 1 = [0] from rfl, List.map_cons, List.map_nil, hres]
  rfl



theorem gmres_identity_run {n : ℕ} (hn : 0 < n) (m : ℕ) (hm : 0 < m) :
    gmres (1 : Matrix (Fin n) (Fin n) ℝ).mulVec (fun _ => 1) none (1e-8) m
      = some (fun _ => 1, [Real.sqrt n, 0]) := by
  have hbeta : norm2 (fun t => (fun _ : Fin n => (1 : ℝ)) t
      - (1 : Matrix (Fin n) (Fin n) ℝ).mulVec
        ((none : Option (Fin n → ℝ)).getD (fun _ => 0)) t) ≠ 0 := by
    rw [hr0_ones, hbeta_ones]
    exact ne_of_gt (sqrt_nat_pos hn)
  have hbreak : stepHnorm (1 : Matrix (Fin n) (Fin n) ℝ).mulVec
      (stateAt (1 : Matrix (Fin n) (Fin n) ℝ).mulVec
        (gmresInit (1 : Matrix (Fin n) (Fin n) ℝ).mulVec
          (fun _ => 1) none) 0) 0 = 0 := by
    show stepHnorm (1 : Matrix (Fin n) (Fin n) ℝ).mulVec
      (gmresInit (1 : Matrix (Fin n) (Fin n) ℝ).mulVec (fun _ => 1) none)
      0 = 0
    rw [st0_ones]
    exact stepHnorm_ones hn
  obtain ⟨hV, hres0, hrun⟩ := gmres_breakdown_char
    (1 : Matrix (Fin n) (Fin n) ℝ).mulVec (fun _ => 1) none (1e-8) 0 m
    hbeta hm (by norm_num) (fun i hi => absurd hi (by omega)) hbreak
  rw [hrun, st0_ones]
  have hM : (Matrix.of fun i k : Fin 1 =>
      (stateAt (1 : Matrix (Fin n) (Fin n) ℝ).mulVec
        (initState n (fun _ => 1) (Real.sqrt n)) 1).H i k)
      = (1 : Matrix (Fin 1) (Fin 1) ℝ) := by
    ext i k
    fin_cases i
    fin_cases k
    show (stateAt (1 : Matrix (Fin n) (Fin n) ℝ).mulVec
      (initState n (fun _ => 1) (Real.sqrt n)) 1).H 0 0
      = (1 : Matrix (Fin 1) (Fin 1) ℝ) 0 0
    rw [st1_H00_ones hn]
    simp [Matrix.one_apply]
  rw [hM]
  have hsolve : linSolve (1 : Matrix (Fin 1) (Fin 1) ℝ)
      (fun i : Fin 1 => (stateAt (1 : Matrix (Fin n) (Fin n) ℝ).mulVec
        (initState n (fun _ => 1) (Real.sqrt n)) 1).g i)
      = some (fun i : Fin 1 => (stateAt (1 : Matrix (Fin n) (Fin n) ℝ).mulVec
        (initState n (fun _ => 1) (Real.sqrt n)) 1).g i) := by
    unfold linSolve
    rw [if_pos (by simp)]
    rw [inv_one, Matrix.one_mulVec]
  rw [hsolve, Option.map_some']
  have hne : Real.sqrt n ≠ 0 := ne_of_gt (sqrt_nat_pos hn)
  congr 1
  refine Prod.ext ?_ ?_
  · show (fun t => ((none : Option (Fin n → ℝ)).getD (fun _ => 0)) t
        + ∑ i : Fin 1, (stateAt (1 : Matrix (Fin n) (Fin n) ℝ).mulVec
            (initState n (fun _ => 1) (Real.sqrt n)) 1).g i
          * (stateAt (1 : Matrix (Fin n) (Fin n) ℝ).mulVec
            (initState n (fun _ => 1) (Real.sqrt n)) 1).V i t)
      = fun _ : Fin n => (1 : ℝ)
    funext t
    rw [Fin.sum_univ_one]
    show (0 : ℝ) + (stateAt (1 : Matrix (Fin n) (Fin n) ℝ).mulVec
        (initState n (fun _ => 1) (Real.sqrt n)) 1).g 0
      * (stateAt (1 : Matrix (Fin n) (Fin n) ℝ).mulVec
        (initState n (fun _ => 1) (Real.sqrt n)) 1).V 0 t = 1
    rw [st1_g0_ones hn, st1_V0_ones hn]
    field_simp
  · show (stateAt (1 : Matrix (Fin n) (Fin n) ℝ).mulVec
      (initState n (fun _ => 1) (Real.sqrt n)) 1).resvec = [Real.sqrt n, 0]
    exact st1_resvec_ones hn


/-- The `1 x 1` zero-matrix run: breakdown at step `0` with a singular
triangular block, so `np.linalg.solve` raises (`none`). -/
theorem gmres_zero_matrix_run :
    gmres (fun v => (0 : Matrix (Fin 1) (Fin 1) ℝ).mulVec v) ![(1 : ℝ)]
      none (1e-8) 1 = none := by
  have hA : ∀ v : Fin 1 → ℝ, (0 : Matrix (Fin 1) (Fin 1) ℝ).mulVec v = 0 :=
    fun v => Matrix.zero_mulVec v
  simp only [gmres, Option.getD, hA]
  have hr : (fun t => ![(1 : ℝ)] t - (0 : Fin 1 → ℝ) t) = fun _ => 1 := by
    funext t
    simp
  rw [hr]
  have hb : norm2 (fun _ : Fin 1 => (1 : ℝ)) = 1 := by
    simp [norm2]
  rw [hb, if_neg (by norm_num)]
  simp only [gmresLoop]
  have hg : (gmresStep (fun _v : Fin 1 → ℝ => (0 : Fin 1 → ℝ))
      (initState 1 (fun _ => 1) 1) 0).g 1 = 0 := by
    norm_num [gmresStep, stepC, stepS, stepH2, stepHnorm, stepW, arnoldi,
      applyRots, mgsStep, upd2_apply, dotp, norm2, initState, givens_rotation,
      Function.update_apply, List.range_succ, List.range_zero,
      List.foldl_append, List.foldl_cons, List.foldl_nil]
  have hH : (gmresStep (fun _v : Fin 1 → ℝ => (0 : Fin 1 → ℝ))
      (initState 1 (fun _ => 1) 1) 0).H 0 0 = 0 := by
    norm_num [gmresStep, stepC, stepS, stepH2, stepHnorm, stepW, arnoldi,
      applyRots, mgsStep, upd2_apply, dotp, norm2, initState, givens_rotation,
      Function.update_apply, List.range_succ, List.range_zero,
      List.foldl_append, List.foldl_cons, List.foldl_nil]
  rw [hg]
  rw [if_pos (by norm_num)]
  have hdet : (Matrix.of fun i k : Fin 1 =>
      (gmresStep (fun _v : Fin 1 → ℝ => (0 : Fin 1 → ℝ))
        (initState 1 (fun _ => 1) 1) 0).H i k).det = 0 := by
    rw [Matrix.det_fin_one]
    simpa using hH
  rw [linSolve, if_neg (by rw [isUnit_iff_ne_zero]; exact not_not_intro hdet)]
  simp


theorem one_ne_sqrt_two_inv : (1 : ℝ) ≠ (Real.sqrt 2)⁻¹ := by
  have h1 : (1 : ℝ) < Real.sqrt 2 := by
    have h := Real.sqrt_lt_sqrt (by norm_num : (0 : ℝ) ≤ 1)
      (by norm_num : (1 : ℝ) < 2)
    rwa [Real.sqrt_one] at h
  intro hcon
  rw [eq_comm, inv_eq_one] at hcon
  linarith

theorem vec_ones_five : (![1, 1, 1, 1, 1] : Fin 5 → ℝ) = fun _ => 1 := by
  funext t
  fin_cases t <;> rfl

theorem nat_cast_five : ((5 : ℕ) : ℝ) = 5 := by norm_num

/-- C1: the claim fails on the code.  On `A = [[1, 1], [1, 0]]`,
`b = [1, 0]`, `x0 = 0`, `tol = 1e-8`, `maxiter = 1` (the loop-exhaustion
exit path), `gmres` returns `x = 0` with residual history
`[1, 1/sqrt 2]`, whose last entry is `1/sqrt 2`, while the true residual
norm `‖b - A x‖₂ = 1`.  The sign slip in `givens_rotation` (`tau = -a/b`)
makes `|g[j+1]|` differ from the residual norm, contradicting the
solver's own docstring (`resvec: list of residual norms`). -/
theorem gmres_returns_nonresidual_history :
    gmres Abug.mulVec bbug none (1e-8) 1
      = some (fun _ => 0, [1, (Real.sqrt 2)⁻¹]) ∧
    norm2 (fun t => bbug t - Abug.mulVec (fun _ => 0) t) = 1 ∧
    ([1, (Real.sqrt 2)⁻¹] : List ℝ).getLast? = some (Real.sqrt 2)⁻¹ ∧
    (1 : ℝ) ≠ (Real.sqrt 2)⁻¹ := by
  refine ⟨gmres_Abug_run, ?_, rfl, one_ne_sqrt_two_inv⟩
  rw [hr0_Abug, hbeta_Abug]

/-- C2: the claim fails on the code.  For `a = 1`, `b = 2` the pair
`(c, s)` returned by `givens_rotation` does NOT satisfy
`-s*a + c*b = 0` (the value is `-4/sqrt 5`), so the advertised rotation
`[[c, s], [-s, c]]` does not map `(a, b)` to `(r, 0)`, contradicting the
function's own docstring.  (The slip: `tau = -a/b` instead of `a/b`.) -/
theorem givens_rotation_violates_contract :
    -(givens_rotation 1 2).2 * 1 + (givens_rotation 1 2).1 * 2 ≠ 0 := by
  rw [givens_rotation]
  norm_num
  intro hcon
  have h4 : Real.sqrt 4 = 2 := by
    rw [show (4 : ℝ) = 2 ^ 2 by norm_num, Real.sqrt_sq (by norm_num)]
  rw [h4] at hcon
  have hval : -(2 / Real.sqrt 5) + -(2 / Real.sqrt 5 * (1 / 2) * 2)
      = -(4 / Real.sqrt 5) := by ring
  rw [hval] at hcon
  have hpos : (0 : ℝ) < 4 / Real.sqrt 5 := by
    have h5 : (0 : ℝ) < Real.sqrt 5 := Real.sqrt_pos.2 (by norm_num)
    positivity
  linarith

/-- C3 counterexample: on `A = [[0]]`, `b = [1]` the Arnoldi step at
`j = 0` produces `‖w‖₂ = 0` (breakdown), yet `gmres` does NOT return a
solution: the triangular block is singular and `np.linalg.solve` raises
`LinAlgError` (modelled as `none`), contradicting the claim's
"returns ... without raising an error". -/
theorem gmres_breakdown_raises_on_singular_block :
    stepHnorm (fun v => (0 : Matrix (Fin 1) (Fin 1) ℝ).mulVec v)
      (gmresInit (fun v => (0 : Matrix (Fin 1) (Fin 1) ℝ).mulVec v)
        ![(1 : ℝ)] none) 0 = 0 ∧
    gmres (fun v => (0 : Matrix (Fin 1) (Fin 1) ℝ).mulVec v) ![(1 : ℝ)]
      none (1e-8) 1 = none := by
  constructor
  · norm_num [gmresInit, stepHnorm, stepW, arnoldi, mgsStep, upd2_apply,
      dotp, norm2, initState, Function.update_apply, List.range_succ,
      List.range_zero, List.foldl_append, List.foldl_cons, List.foldl_nil,
      Matrix.zero_mulVec, Matrix.mulVec, Matrix.dotProduct]
  · exact gmres_zero_matrix_run

/-- C3 amended: when the Arnoldi step at `j` produces `‖w‖₂ = 0`
(breakdown) on a run that reaches step `j` with `tol ≥ 0`, `gmres`
performs no division by the zero norm (column `V[:, j+1]` keeps its
`np.zeros` value), records residual `0`, and exits at step `j` through
the triangular solve over the first `j + 1` basis columns — returning
that solution when the block is invertible and raising `LinAlgError`
(`none`) when it is singular. -/
theorem gmres_breakdown_no_normalize_and_exit {n : ℕ}
    (Aop : (Fin n → ℝ) → (Fin n → ℝ)) (b : Fin n → ℝ)
    (x0 : Option (Fin n → ℝ)) (tol : ℝ) (j m : ℕ)
    (hbeta : norm2 (fun t => b t - Aop (x0.getD (fun _ => 0)) t) ≠ 0)
    (hj : j < m) (htol : 0 ≤ tol)
    (hprev : ∀ i, i < j → ¬(resAt Aop (gmresInit Aop b x0) i ≤ tol))
    (hbreak : stepHnorm Aop (stateAt Aop (gmresInit Aop b x0) j) j = 0) :
    (stateAt Aop (gmresInit Aop b x0) (j + 1)).V (j + 1) = (fun _ => 0) ∧
    resAt Aop (gmresInit Aop b x0) j = 0 ∧
    gmres Aop b x0 tol m = (linSolve
        (Matrix.of fun i k : Fin (j + 1) =>
          (stateAt Aop (gmresInit Aop b x0) (j + 1)).H i k)
        (fun i : Fin (j + 1) =>
          (stateAt Aop (gmresInit Aop b x0) (j + 1)).g i)).map
      (fun y => (fun t => (x0.getD (fun _ => 0)) t
          + ∑ i : Fin (j + 1),
              y i * (stateAt Aop (gmresInit Aop b x0) (j + 1)).V i t,
        (stateAt Aop (gmresInit Aop b x0) (j + 1)).resvec)) :=
  gmres_breakdown_char Aop b x0 tol j m hbeta hj htol hprev hbreak

/-- C3 amended, witness: on `A = I` (1×1), `b = [1]`, breakdown happens
at step `0` and the theorem applies with every hypothesis discharged. -/
theorem gmres_breakdown_no_normalize_and_exit_witness :
    (norm2 (fun t => (fun _ : Fin 1 => (1 : ℝ)) t
      - (1 : Matrix (Fin 1) (Fin 1) ℝ).mulVec
          ((none : Option (Fin 1 → ℝ)).getD (fun _ => 0)) t) ≠ 0) ∧
    ((0 : ℝ) ≤ 1e-8) ∧
    (stepHnorm (1 : Matrix (Fin 1) (Fin 1) ℝ).mulVec
      (stateAt (1 : Matrix (Fin 1) (Fin 1) ℝ).mulVec
        (gmresInit (1 : Matrix (Fin 1) (Fin 1) ℝ).mulVec
          (fun _ => 1) none) 0) 0 = 0) ∧
    ((stateAt (1 : Matrix (Fin 1) (Fin 1) ℝ).mulVec
        (gmresInit (1 : Matrix (Fin 1) (Fin 1) ℝ).mulVec
          (fun _ => 1) none) 1).V 1 = (fun _ => 0) ∧
      resAt (1 : Matrix (Fin 1) (Fin 1) ℝ).mulVec
        (gmresInit (1 : Matrix (Fin 1) (Fin 1) ℝ).mulVec
          (fun _ => 1) none) 0 = 0 ∧
      gmres (1 : Matrix (Fin 1) (Fin 1) ℝ).mulVec (fun _ => 1) none
          (1e-8) 1
        = (linSolve
            (Matrix.of fun i k : Fin 1 =>
              (stateAt (1 : Matrix (Fin 1) (Fin 1) ℝ).mulVec
                (gmresInit (1 : Matrix (Fin 1) (Fin 1) ℝ).mulVec
                  (fun _ => 1) none) 1).H i k)
            (fun i : Fin 1 =>
              (stateAt (1 : Matrix (Fin 1) (Fin 1) ℝ).mulVec
                (gmresInit (1 : Matrix (Fin 1) (Fin 1) ℝ).mulVec
                  (fun _ => 1) none) 1).g i)).map
          (fun y => (fun t =>
              ((none : Option (Fin 1 → ℝ)).getD (fun _ => 0)) t
              + ∑ i : Fin 1,
                  y i * (stateAt (1 : Matrix (Fin 1) (Fin 1) ℝ).mulVec
                    (gmresInit (1 : Matrix (Fin 1) (Fin 1) ℝ).mulVec
                      (fun _ => 1) none) 1).V i t,
            (stateAt (1 : Matrix (Fin 1) (Fin 1) ℝ).mulVec
              (gmresInit (1 : Matrix (Fin 1) (Fin 1) ℝ).mulVec
                (fun _ => 1) none) 1).resvec))) := by
  have h1 : (0 : ℕ) < 1 := by norm_num
  have hbeta : norm2 (fun t => (fun _ : Fin 1 => (1 : ℝ)) t
      - (1 : Matrix (Fin 1) (Fin 1) ℝ).mulVec
          ((none : Option (Fin 1 → ℝ)).getD (fun _ => 0)) t) ≠ 0 := by
    rw [hr0_ones, hbeta_ones]
    exact ne_of_gt (sqrt_nat_pos h1)
  have hbreak : stepHnorm (1 : Matrix (Fin 1) (Fin 1) ℝ).mulVec
      (stateAt (1 : Matrix (Fin 1) (Fin 1) ℝ).mulVec
        (gmresInit (1 : Matrix (Fin 1) (Fin 1) ℝ).mulVec
          (fun _ => 1) none) 0) 0 = 0 := by
    show stepHnorm (1 : Matrix (Fin 1) (Fin 1) ℝ).mulVec
      (gmresInit (1 : Matrix (Fin 1) (Fin 1) ℝ).mulVec (fun _ => 1) none)
      0 = 0
    rw [st0_ones]
    exact stepHnorm_ones h1
  exact ⟨hbeta, by norm_num, hbreak,
    gmres_breakdown_no_normalize_and_exit
      (1 : Matrix (Fin 1) (Fin 1) ℝ).mulVec (fun _ => 1) none (1e-8) 0 1
      hbeta (by norm_num) (by norm_num)
      (fun i hi => absurd hi (by omega)) hbreak⟩

/-- C4: on `A = I` (5×5), `b = [1,1,1,1,1]`, `x0 = 0` (defaults
`tol = 1e-8`, `maxiter = 5`), the first Arnoldi step computes
`H[0,0] = 1` and `H[1,0] = ‖w‖₂ = 0` (breakdown at `j = 0`, the stored
entry is `0`), and `gmres` returns `x = [1,1,1,1,1]` with residual
history `[sqrt 5, 0]`. -/
theorem gmres_identity_five_concrete :
    gmres (1 : Matrix (Fin 5) (Fin 5) ℝ).mulVec ![1, 1, 1, 1, 1] none
        (1e-8) 5 = some (![1, 1, 1, 1, 1], [Real.sqrt 5, 0]) ∧
    stepH2 (1 : Matrix (Fin 5) (Fin 5) ℝ).mulVec
      (initState 5 (fun _ => 1) (Real.sqrt 5)) 0 0 0 = 1 ∧
    stepHnorm (1 : Matrix (Fin 5) (Fin 5) ℝ).mulVec
      (initState 5 (fun _ => 1) (Real.sqrt 5)) 0 = 0 ∧
    (stateAt (1 : Matrix (Fin 5) (Fin 5) ℝ).mulVec
      (initState 5 (fun _ => 1) (Real.sqrt 5)) 1).H 1 0 = 0 := by
  have h5 : (0 : ℕ) < 5 := by norm_num
  refine ⟨?_, ?_, ?_, ?_⟩
  · rw [vec_ones_five]
    have hrun := gmres_identity_run h5 5 (by norm_num)
    rw [nat_cast_five] at hrun
    rw [hrun]
  · rw [stepH2_zero_00]
    have hd := dotVV_ones h5
    rw [nat_cast_five] at hd
    exact hd
  · have hs := stepHnorm_ones h5
    rw [nat_cast_five] at hs
    exact hs
  · have hinv := stateAt_inv (1 : Matrix (Fin 5) (Fin 5) ℝ).mulVec
      (fun _ => 1) (Real.sqrt 5) 1
    exact hinv.2.2.2.1 0 (by norm_num)


/-- C5: if the loop over `j = 0 .. maxiter-1` completes with every
residual check failing, `gmres` returns normally (no exception), with
`x = x0 + V y` where `y` is a minimum-norm least-squares solution of the
full accumulated `(maxiter+1) × maxiter` rotated Hessenberg system (the
code's `m × m` `lstsq` call is equivalent since the last rotated row is
identically zero), together with the accumulated history. -/
theorem gmres_exhaustion_least_squares {n : ℕ}
    (Aop : (Fin n → ℝ) → (Fin n → ℝ)) (b : Fin n → ℝ)
    (x0 : Option (Fin n → ℝ)) (tol : ℝ) (m : ℕ)
    (hbeta : norm2 (fun t => b t - Aop (x0.getD (fun _ => 0)) t) ≠ 0)
    (hres : ∀ j, j < m → ¬(resAt Aop (gmresInit Aop b x0) j ≤ tol)) :
    gmres Aop b x0 tol m = some
      (fun t => (x0.getD (fun _ => 0)) t
        + ∑ i : Fin m,
            lstsq (Matrix.of fun i k : Fin m =>
                (stateAt Aop (gmresInit Aop b x0) m).H i k)
              (fun i : Fin m => (stateAt Aop (gmresInit Aop b x0) m).g i) i
            * (stateAt Aop (gmresInit Aop b x0) m).V i t,
        (stateAt Aop (gmresInit Aop b x0) m).resvec) ∧
    IsMinNormLS
      (Matrix.of fun (i : Fin (m + 1)) (k : Fin m) =>
        (stateAt Aop (gmresInit Aop b x0) m).H i k)
      (fun i : Fin (m + 1) => (stateAt Aop (gmresInit Aop b x0) m).g i)
      (lstsq (Matrix.of fun i k : Fin m =>
          (stateAt Aop (gmresInit Aop b x0) m).H i k)
        (fun i : Fin m => (stateAt Aop (gmresInit Aop b x0) m).g i)) :=
  gmres_exhaust_minNorm Aop b x0 tol m hbeta hres

/-- C5 witness: the `A = [[1, 1], [1, 0]]`, `b = [1, 0]`, `maxiter = 1`
run exhausts the loop (its only recorded residual is `1/sqrt 2`, above
`tol = 1e-8`), and the theorem applies with its hypotheses discharged. -/
theorem gmres_exhaustion_least_squares_witness :
    (norm2 (fun t => bbug t - Abug.mulVec
      ((none : Option (Fin 2 → ℝ)).getD (fun _ => 0)) t) ≠ 0) ∧
    (∀ j, j < 1 → ¬(resAt Abug.mulVec (gmresInit Abug.mulVec bbug none) j
      ≤ (1e-8 : ℝ))) ∧
    (gmres Abug.mulVec bbug none (1e-8) 1 = some
      (fun t => ((none : Option (Fin 2 → ℝ)).getD (fun _ => 0)) t
        + ∑ i : Fin 1,
            lstsq (Matrix.of fun i k : Fin 1 =>
                (stateAt Abug.mulVec (gmresInit Abug.mulVec bbug none) 1).H
                  i k)
              (fun i : Fin 1 =>
                (stateAt Abug.mulVec (gmresInit Abug.mulVec bbug none) 1).g
                  i) i
            * (stateAt Abug.mulVec (gmresInit Abug.mulVec bbug none) 1).V
                i t,
        (stateAt Abug.mulVec (gmresInit Abug.mulVec bbug none) 1).resvec) ∧
    IsMinNormLS
      (Matrix.of fun (i : Fin 2) (k : Fin 1) =>
        (stateAt Abug.mulVec (gmresInit Abug.mulVec bbug none) 1).H i k)
      (fun i : Fin 2 =>
        (stateAt Abug.mulVec (gmresInit Abug.mulVec bbug none) 1).g i)
      (lstsq (Matrix.of fun i k : Fin 1 =>
          (stateAt Abug.mulVec (gmresInit Abug.mulVec bbug none) 1).H i k)
        (fun i : Fin 1 =>
          (stateAt Abug.mulVec (gmresInit Abug.mulVec bbug none) 1).g i))) := by
  have hbeta : norm2 (fun t => bbug t - Abug.mulVec
      ((none : Option (Fin 2 → ℝ)).getD (fun _ => 0)) t) ≠ 0 := by
    rw [hbeta_run]
    norm_num
  exact ⟨hbeta, hres_run,
    gmres_exhaustion_least_squares Abug.mulVec bbug none (1e-8) 1
      hbeta hres_run⟩

/-- C6: one restart cycle with inner budget `m = n` is literally the
plain solver with `maxiter = n` (both from the default zero initial
guess): same solution, same residual history, including the
exception-propagation behaviour. -/
theorem gmres_restart_single_cycle_equiv {n : ℕ}
    (Aop : (Fin n → ℝ) → (Fin n → ℝ)) (b : Fin n → ℝ) (tol : ℝ) :
    gmres_restart Aop b none n tol 1 = gmres Aop b none tol n :=
  gmres_restart_one_cycle Aop b tol n

/-- C7: when the initial residual norm is exactly zero, `gmres` returns
immediately: the solution is the (copied) initial guess and the history
is the single entry `[0]`; no Arnoldi step is taken and no error is
raised. -/
theorem gmres_zero_residual_short_circuit {n : ℕ}
    (Aop : (Fin n → ℝ) → (Fin n → ℝ)) (b : Fin n → ℝ)
    (x0 : Option (Fin n → ℝ)) (tol : ℝ) (m : ℕ)
    (h : norm2 (fun t => b t - Aop (x0.getD (fun _ => 0)) t) = 0) :
    gmres Aop b x0 tol m = some (x0.getD (fun _ => 0), [0]) := by
  show (if norm2 (fun t => b t - Aop (x0.getD (fun _ => 0)) t) = 0
      then some (x0.getD (fun _ => 0), [0])
      else gmresLoop Aop tol (x0.getD (fun _ => 0)) m
        (gmresInit Aop b x0) 0 m) = _
  rw [if_pos h]

/-- C7 witness: `A = I` (1×1), `b = [1]`, `x0 = [1]` has zero initial
residual, and the short-circuit fires. -/
theorem gmres_zero_residual_short_circuit_witness :
    (norm2 (fun t => (fun _ : Fin 1 => (1 : ℝ)) t
      - (1 : Matrix (Fin 1) (Fin 1) ℝ).mulVec
          ((some (fun _ => 1) : Option (Fin 1 → ℝ)).getD (fun _ => 0)) t)
      = 0) ∧
    gmres (1 : Matrix (Fin 1) (Fin 1) ℝ).mulVec (fun _ => 1)
        (some (fun _ => 1)) (1e-8) 1
      = some ((some (fun _ => 1) : Option (Fin 1 → ℝ)).getD (fun _ => 0),
          [0]) := by
  have h : norm2 (fun t => (fun _ : Fin 1 => (1 : ℝ)) t
      - (1 : Matrix (Fin 1) (Fin 1) ℝ).mulVec
          ((some (fun _ => 1) : Option (Fin 1 → ℝ)).getD (fun _ => 0)) t)
      = 0 := by
    simp [Matrix.one_mulVec, norm2]
  exact ⟨h, gmres_zero_residual_short_circuit
    (1 : Matrix (Fin 1) (Fin 1) ℝ).mulVec (fun _ => 1)
    (some (fun _ => 1)) (1e-8) 1 h⟩

/-- C8 counterexample: in the two-cycle restarted run on
`A = [[1, 1], [1, 0]]`, `b = [1, 0]`, `m = 1`, both executed cycles
return the history `[1, 1/sqrt 2]`; the second cycle's dropped first
entry is `1`, while the last entry of the previous cycle's history is
`1/sqrt 2`, and these differ — so the dropped entry does NOT duplicate
the last entry of the previous cycle, falsifying the claim's
parenthetical. -/
theorem gmres_restart_dropped_entry_not_duplicate :
    gmres_restart Abug.mulVec bbug none 1 (1e-8) 2
      = some (fun _ => 0, [1, (Real.sqrt 2)⁻¹, (Real.sqrt 2)⁻¹]) ∧
    gmres Abug.mulVec bbug (some (fun _ => 0)) (1e-8) 1
      = some (fun _ => 0, [1, (Real.sqrt 2)⁻¹]) ∧
    ([1, (Real.sqrt 2)⁻¹] : List ℝ).headI = 1 ∧
    ([1, (Real.sqrt 2)⁻¹] : List ℝ).getLast? = some (Real.sqrt 2)⁻¹ ∧
    (1 : ℝ) ≠ (Real.sqrt 2)⁻¹ :=
  ⟨restart_Abug_run, gmres_Abug_some_zero, rfl, rfl, one_ne_sqrt_two_inv⟩

/-- C8 amended: for `maxcycles ≥ 1`, every successful `gmres_restart`
run is a chain of `k` inner solves whose returned history is cycle 0's
full history followed by the tails of the later cycles' histories
(`catHist`); the controller continued past a cycle exactly while the
running history's last entry exceeded `tol`, and stopped before
exhausting `maxcycles` only with that last entry at most `tol`.  (The
claim's parenthetical — that each dropped first entry duplicates the
previous cycle's last entry — is dropped: it fails on the code.) -/
theorem gmres_restart_history_concat {n : ℕ}
    (Aop : (Fin n → ℝ) → (Fin n → ℝ)) (b : Fin n → ℝ)
    (x0 : Option (Fin n → ℝ)) (m : ℕ) (tol : ℝ) (C : ℕ) (hC : 1 ≤ C)
    (x : Fin n → ℝ) (H : List ℝ)
    (heq : gmres_restart Aop b x0 m tol C = some (x, H)) :
    ∃ (k : ℕ) (xs : ℕ → Fin n → ℝ) (hs : ℕ → List ℝ),
      1 ≤ k ∧ k ≤ C ∧ xs 0 = x0.getD (fun _ => 0) ∧
      (∀ i, i < k → gmres Aop b (some (xs i)) tol m
        = some (xs (i + 1), hs i)) ∧
      x = xs k ∧ H = catHist hs (k - 1) ∧
      (∀ i, i + 1 < k → ∃ l,
        (catHist hs i).getLast? = some l ∧ ¬l ≤ tol) ∧
      (k < C → ∃ l, (catHist hs (k - 1)).getLast? = some l ∧ l ≤ tol) :=
  gmres_restart_history_structure Aop b x0 m tol C hC x H heq

/-- C8 amended, witness: the concrete two-cycle restarted run satisfies
the hypotheses, and the theorem applies. -/
theorem gmres_restart_history_concat_witness :
    (1 ≤ 2) ∧
    gmres_restart Abug.mulVec bbug none 1 (1e-8) 2
      = some (fun _ => 0, [1, (Real.sqrt 2)⁻¹, (Real.sqrt 2)⁻¹]) ∧
    (∃ (k : ℕ) (xs : ℕ → Fin 2 → ℝ) (hs : ℕ → List ℝ),
      1 ≤ k ∧ k ≤ 2 ∧
      xs 0 = (none : Option (Fin 2 → ℝ)).getD (fun _ => 0) ∧
      (∀ i, i < k → gmres Abug.mulVec bbug (some (xs i)) (1e-8) 1
        = some (xs (i + 1), hs i)) ∧
      (fun _ => 0 : Fin 2 → ℝ) = xs k ∧
      ([1, (Real.sqrt 2)⁻¹, (Real.sqrt 2)⁻¹] : List ℝ)
        = catHist hs (k - 1) ∧
      (∀ i, i + 1 < k → ∃ l,
        (catHist hs i).getLast? = some l ∧ ¬l ≤ (1e-8 : ℝ)) ∧
      (k < 2 → ∃ l, (catHist hs (k - 1)).getLast? = some l
        ∧ l ≤ (1e-8 : ℝ))) :=
  ⟨by norm_num, restart_Abug_run,
    gmres_restart_history_concat Abug.mulVec bbug none 1 (1e-8) 2
      (by norm_num) (fun _ => 0) [1, (Real.sqrt 2)⁻¹, (Real.sqrt 2)⁻¹]
      restart_Abug_run⟩

/-- C10: with `maxcycles = 0` the restart controller never invokes the
inner solver: it returns the (copied) initial guess — the zero vector
when `x0` is `None` — together with an empty residual history, and the
convergence check is never evaluated. -/
theorem gmres_restart_zero_maxcycles {n : ℕ}
    (Aop : (Fin n → ℝ) → (Fin n → ℝ)) (b : Fin n → ℝ)
    (x0 : Option (Fin n → ℝ)) (m : ℕ) (tol : ℝ) :
    gmres_restart Aop b x0 m tol 0 = some (x0.getD (fun _ => 0), []) :=
  gmres_restart_zero_cycles Aop b x0 m tol

end
